import Mathlib

/-!
# Raíces enteras concurrentes

Shallow embedding of `Raices-enteras-concurrentes-GO.go`: the polynomial
evaluator `evalEsCero`, the coefficient reader `parseCoeffs` and the
concurrent search `obtenerRaicesEnterasConcurrente`, the latter as a
transition system whose atomic steps are the statements of a worker's loop
(the mutex-protected region being one step).

`*big.Int` values are mathematical integers (`Int`); `int64` values are
integers kept in range by `wrapInt64`.
-/

namespace RaicesEnteras

set_option maxRecDepth 4096

/-! ## Polynomial evaluator -/

/-- `new(big.Int).Exp(x, y, nil)`: the power `x**y`, and `1` when `y <= 0`. -/
def bigExp (x y : Int) : Int :=
  if y ≤ 0 then 1 else x ^ y.toNat

/-- The `for i, c := range coeffs` loop of `evalEsCero`: `i` is the index of
the head of the remaining coefficients and `sum` the accumulator. -/
def evalLoop (deg : Int) (x : Int) : Nat → List Int → Int → Int
  | _, [], sum => sum
  | i, c :: cs, sum =>
    let exp := deg - (i : Int)
    if exp = 0 then
      evalLoop deg x (i + 1) cs (sum + c)
    else
      evalLoop deg x (i + 1) cs (sum + c * bigExp x exp)

/-- `evalEsCero(coeffs, x)`: does the polynomial with coefficients `coeffs`
(highest degree first) vanish at `x`? -/
def evalEsCero (coeffs : List Int) (x : Int) : Bool :=
  let deg : Int := (coeffs.length : Int) - 1
  evalLoop deg x 0 coeffs 0 == 0

/-- `obtenerCantidadMaximaRaices`: the degree. -/
def obtenerCantidadMaximaRaices (polinomio : List Int) : Int :=
  (polinomio.length : Int) - 1

/-- The exact integer value `Σ_i P[i] * x^(d-i)` with `d = len(P) - 1`,
written as a finite sum over the indices of `P`. -/
def sumaExacta (P : List Int) (x : Int) : Int :=
  ∑ i ∈ Finset.range P.length, P.getD i 0 * x ^ (P.length - 1 - i)

/-! ## Coefficient reader

Go strings are read as sequences of characters. `strings.Split`,
`strings.TrimSpace` and `strconv.ParseInt` are transcribed from the
behaviour of the Go standard library.
-/

/-- `toBigSlice`: each `int64` becomes the `big.Int` of the same value. -/
def toBigSlice (ints : List Int) : List Int :=
  ints.map fun v => v

/-- `strings.Split(s, ",")`: the pieces of `s` between commas; a string
without comma, the empty one included, gives one piece. -/
def splitComa : List Char → List (List Char)
  | [] => [[]]
  | c :: cs =>
    if c = ',' then [] :: splitComa cs
    else
      match splitComa cs with
      | [] => [[c]]
      | f :: fs => (c :: f) :: fs

/-- `unicode.IsSpace`: tab, line feed, vertical tab, form feed, carriage
return, space, U+0085, U+00A0 and the other `White_Space` code points. -/
def isSpace (c : Char) : Bool :=
  let u := c.toNat
  (9 ≤ u && u ≤ 13) || u == 32 || u == 0x85 || u == 0xA0 || u == 0x1680 ||
  (0x2000 ≤ u && u ≤ 0x200A) || u == 0x2028 || u == 0x2029 || u == 0x202F ||
  u == 0x205F || u == 0x3000

/-- `strings.TrimSpace`: drop leading and trailing white space. -/
def trimSpace (s : List Char) : List Char :=
  ((s.dropWhile isSpace).reverse.dropWhile isSpace).reverse

/-- The two errors of `strconv`: `ErrSyntax` and `ErrRange`. -/
inductive NumError
  | sintaxis
  | rango
deriving DecidableEq, Repr

/-- The digit loop of `strconv.ParseUint(s, 10, 64)` with accumulator `n`:
a character that is not a decimal digit is a syntax error, and a value that
leaves `uint64` is a range error, reported as soon as it happens. -/
def parseUintLoop : List Char → Nat → Except NumError Nat
  | [], n => .ok n
  | c :: cs, n =>
    if '0' ≤ c ∧ c ≤ '9' then
      let d := c.toNat - '0'.toNat
      if n ≥ (2 ^ 64 - 1) / 10 + 1 then .error .rango
      else if n * 10 + d > 2 ^ 64 - 1 then .error .rango
      else parseUintLoop cs (n * 10 + d)
    else .error .sintaxis

/-- `strconv.ParseUint(s, 10, 64)`; on a range error the value returned
with it is `2^64 - 1`. -/
def parseUint (s : List Char) : Except NumError Nat :=
  if s = [] then .error .sintaxis else parseUintLoop s 0

/-- The "pick off leading sign" step of `strconv.ParseInt`: whether the
number is negative, and what follows the sign. -/
def quitarSigno (s : List Char) : Bool × List Char :=
  match s with
  | '+' :: r => (false, r)
  | '-' :: r => (true, r)
  | _ => (false, s)

/-- `strconv.ParseInt(s, 10, 64)`: an optional sign, then `ParseUint`, then
the check against the `int64` range. -/
def parseInt (s : List Char) : Except NumError Int :=
  if s = [] then .error .sintaxis
  else
    let neg := (quitarSigno s).1
    match parseUint (quitarSigno s).2 with
    | .error .sintaxis => .error .sintaxis
    | .error .rango => .error .rango
    | .ok un =>
      if !neg && un ≥ 2 ^ 63 then .error .rango
      else if neg && un > 2 ^ 63 then .error .rango
      else .ok (if neg then -(un : Int) else (un : Int))

/-- The errors of `parseCoeffs`: an invalid coefficient (with the token and
the `strconv` error), or fewer than 2 coefficients. -/
inductive ErrorCoeffs
  | invalido (token : List Char) (err : NumError)
  | pocos
deriving DecidableEq, Repr

/-- The `for _, f := range fields` loop of `parseCoeffs`; `ints` holds the
coefficients read so far. -/
def parseCoeffsLoop : List (List Char) → List Int → Except ErrorCoeffs (List Int)
  | [], ints => .ok ints
  | f :: fs, ints =>
    let f := trimSpace f
    if f = [] then parseCoeffsLoop fs ints
    else
      match parseInt f with
      | .error e => .error (.invalido f e)
      | .ok v => parseCoeffsLoop fs (ints ++ [v])

/-- `parseCoeffs(csv)`. -/
def parseCoeffs (csv : String) : Except ErrorCoeffs (List Int) :=
  match parseCoeffsLoop (splitComa csv.toList) [] with
  | .error e => .error e
  | .ok ints =>
    if ints.length < 2 then .error .pocos
    else .ok (toBigSlice ints)

/-- A decimal integer literal: an optional sign followed by one or more
decimal digits. -/
def esEntero (t : List Char) : Bool :=
  match t with
  | '+' :: ds => !ds.isEmpty && ds.all Char.isDigit
  | '-' :: ds => !ds.isEmpty && ds.all Char.isDigit
  | ds => !ds.isEmpty && ds.all Char.isDigit

/-- The tokens of a coefficient list: its comma-separated pieces, trimmed. -/
def tokens (csv : String) : List (List Char) :=
  (splitComa csv.toList).map trimSpace

/-- The number written by a sequence of decimal digits. -/
def valorDecimal (ds : List Char) : Nat :=
  ds.foldl (fun acc c => acc * 10 + (c.toNat - '0'.toNat)) 0

/-- The integer written by a decimal integer literal. -/
def valorEntero (t : List Char) : Int :=
  match t with
  | '+' :: ds => (valorDecimal ds : Int)
  | '-' :: ds => -(valorDecimal ds : Int)
  | ds => (valorDecimal ds : Int)

/-- A valid base-10 signed 64-bit integer literal: a decimal integer
literal whose value lies between `-2^63` and `2^63 - 1`. -/
def esLiteralInt64 (t : List Char) : Bool :=
  esEntero t && decide (-(2 : Int) ^ 63 ≤ valorEntero t ∧ valorEntero t ≤ 2 ^ 63 - 1)

/-! ## Stride partition -/

/-- The first candidate magnitude `id + 1` of worker `id`, read over the
unbounded integers. -/
def cursorInicial (id : Nat) : Int :=
  (id : Int) + 1

/-- The next candidate magnitude `n + workers` of a lane, read over the
unbounded integers. -/
def cursorSiguiente (workers : Nat) (n : Int) : Int :=
  n + (workers : Int)

/-- The cursor of worker `id` at its `k`-th loop iteration: `cursorInicial`
followed by `k` applications of `cursorSiguiente`. -/
def cursorEn (workers id : Nat) : Nat → Int
  | 0 => cursorInicial id
  | k + 1 => cursorSiguiente workers (cursorEn workers id k)

/-- The `int64` that Go computes when the mathematical result is `z`:
two's complement wrap-around. -/
def wrapInt64 (z : Int) : Int :=
  (z + 2 ^ 63) % 2 ^ 64 - 2 ^ 63

/-- `n := int64(id + 1)` as the `int64` it is in the source. -/
def cursorInicial64 (id : Nat) : Int :=
  wrapInt64 ((id : Int) + 1)

/-- `n += int64(workers)` as the `int64` addition it is in the source. -/
def cursorSiguiente64 (workers : Nat) (n : Int) : Int :=
  wrapInt64 (n + (workers : Int))

/-- The `int64` cursor of worker `id` at its `k`-th loop iteration. -/
def cursorEn64 (workers id : Nat) : Nat → Int
  | 0 => cursorInicial64 id
  | k + 1 => cursorSiguiente64 workers (cursorEn64 workers id k)


/-! ## Concurrent search

The cursor `n` of a worker is an `int64`: `n := int64(id + 1)`,
`n += int64(workers)` and `-n` wrap around. The transition system is
written once for two readings of that arithmetic, `Aritmetica.int64`, which
is the program, and `Aritmetica.ilimitada`, the idealisation with an
unbounded cursor. The two make the same steps until a cursor passes
`2^63 - 1`.
-/

/-- How the arithmetic on a worker's cursor is read. -/
inductive Aritmetica
  /-- The program: the cursor is an `int64`. -/
  | int64
  /-- The idealisation: the cursor is an unbounded integer. -/
  | ilimitada
deriving DecidableEq, Repr

/-- `n := int64(id + 1)`. -/
def cursorInicialDe (ar : Aritmetica) (id : Nat) : Int :=
  match ar with
  | .int64 => cursorInicial64 id
  | .ilimitada => cursorInicial id

/-- `n += int64(workers)`. -/
def cursorSiguienteDe (ar : Aritmetica) (workers : Nat) (n : Int) : Int :=
  match ar with
  | .int64 => cursorSiguiente64 workers n
  | .ilimitada => cursorSiguiente workers n

/-- The candidate `-n`. -/
def negarDe (ar : Aritmetica) (n : Int) : Int :=
  match ar with
  | .int64 => wrapInt64 (-n)
  | .ilimitada => -n

/-- The arguments of `obtenerRaicesEnterasConcurrente` other than `ctx`
and `trace` (`make` and `wg.Add` reject negative values, hence `Nat`),
together with the reading of the cursor arithmetic. -/
structure Config where
  polinomio : List Int
  cantidadRaices : Nat
  workers : Nat
  cursor : Aritmetica
deriving DecidableEq, Repr

/-- Control points of a worker goroutine. -/
inductive Pc
  /-- At the `select` on `ctx.Done()` that opens each iteration. -/
  | select
  /-- Before `if evalEsCero(polinomio, n)`. -/
  | evalPos
  /-- Before `mu.Lock()` of the `+n` branch. -/
  | lockPos
  /-- Before `if evalEsCero(polinomio, -n)`. -/
  | evalNeg
  /-- Before `mu.Lock()` of the `-n` branch. -/
  | lockNeg
  /-- Before `n += int64(workers)`. -/
  | avanzar
  /-- The goroutine has returned (`wg.Done()` has run). -/
  | fin
deriving DecidableEq, Repr

/-- Private state of a worker: control point and cursor `n`. -/
structure Worker where
  pc : Pc
  n : Int
deriving DecidableEq, Repr

/-- State of one invocation: the shared slice `raices`, whether the derived
context is cancelled (`ctx.Done()` closed), and the workers by `id`. -/
structure Estado where
  raices : List Int
  cancelado : Bool
  ws : List Worker
deriving DecidableEq, Repr

/-- The region between `mu.Lock()` and `mu.Unlock()` for candidate `c`:
the new `raices`, the new cancellation flag, and whether the worker returns. -/
def regionCritica (cfg : Config) (c : Int) (raices : List Int) (cancelado : Bool) :
    List Int × Bool × Bool :=
  if raices.length < cfg.cantidadRaices then
    let raices' := raices ++ [c]
    if raices'.length ≥ cfg.cantidadRaices then
      (raices', true, true)
    else
      (raices', cancelado, false)
  else
    (raices, cancelado, false)

/-- One atomic step of a worker in private state `w`, given the shared
`raices` and cancellation flag: the new private and shared state. -/
def pasoLocal (cfg : Config) (w : Worker) (raices : List Int) (cancelado : Bool) :
    Worker × List Int × Bool :=
  match w.pc with
  | .select =>
    if cancelado then ({ w with pc := .fin }, raices, cancelado)
    else ({ w with pc := .evalPos }, raices, cancelado)
  | .evalPos =>
    if evalEsCero cfg.polinomio w.n then ({ w with pc := .lockPos }, raices, cancelado)
    else ({ w with pc := .evalNeg }, raices, cancelado)
  | .lockPos =>
    match regionCritica cfg w.n raices cancelado with
    | (raices', cancelado', true) => ({ w with pc := .fin }, raices', cancelado')
    | (raices', cancelado', false) => ({ w with pc := .evalNeg }, raices', cancelado')
  | .evalNeg =>
    if evalEsCero cfg.polinomio (negarDe cfg.cursor w.n) then
      ({ w with pc := .lockNeg }, raices, cancelado)
    else ({ w with pc := .avanzar }, raices, cancelado)
  | .lockNeg =>
    match regionCritica cfg (negarDe cfg.cursor w.n) raices cancelado with
    | (raices', cancelado', true) => ({ w with pc := .fin }, raices', cancelado')
    | (raices', cancelado', false) => ({ w with pc := .avanzar }, raices', cancelado')
  | .avanzar =>
    ({ pc := .select, n := cursorSiguienteDe cfg.cursor cfg.workers w.n }, raices, cancelado)
  | .fin => (w, raices, cancelado)

/-- Worker `id` takes its next atomic step (nothing happens when there is
no such worker). -/
def pasoWorker (cfg : Config) (id : Nat) (s : Estado) : Estado :=
  match s.ws[id]? with
  | none => s
  | some w =>
    match pasoLocal cfg w s.raices s.cancelado with
    | (w', raices', cancelado') =>
      { raices := raices', cancelado := cancelado', ws := s.ws.set id w' }

/-- What the scheduler or the environment can do next: let worker `id` take
a step, or have the caller cancel the parent context. -/
inductive Accion
  | worker (id : Nat)
  | cancelarExterno
deriving DecidableEq, Repr

/-- Effect of one action. -/
def paso (cfg : Config) (a : Accion) (s : Estado) : Estado :=
  match a with
  | .worker id => pasoWorker cfg id s
  | .cancelarExterno => { s with cancelado := true }

/-- State after the launch loop: `raices` empty, context live, worker `id`
about to enter its loop with `n = int64(id + 1)`. -/
def inicial (cfg : Config) : Estado :=
  { raices := []
    cancelado := false
    ws := (List.range cfg.workers).map fun id =>
      { pc := .select, n := cursorInicialDe cfg.cursor id } }

/-- Run a finite sequence of actions from a state. -/
def ejecutarDesde (cfg : Config) (s : Estado) (acciones : List Accion) : Estado :=
  acciones.foldl (fun s a => paso cfg a s) s

/-- Run a finite sequence of actions from the initial state. -/
def ejecutar (cfg : Config) (acciones : List Accion) : Estado :=
  ejecutarDesde cfg (inicial cfg) acciones

/-- States reachable under some interleaving, external cancellation included. -/
def Alcanzable (cfg : Config) (s : Estado) : Prop :=
  ∃ acciones : List Accion, ejecutar cfg acciones = s

/-- States reachable under some interleaving of the workers when the caller
never cancels the context. -/
def AlcanzableSinCancelar (cfg : Config) (s : Estado) : Prop :=
  ∃ ids : List Nat, ejecutar cfg (ids.map Accion.worker) = s

/-- Every worker has returned, so that `wg.Wait()` returns and the
function returns `raices`. -/
def terminado (s : Estado) : Bool :=
  s.ws.all fun w => w.pc == Pc.fin

/-- `obtenerRaicesEnterasConcurrente(ctx, polinomio, cantidadRaices, workers,
trace)` under the interleaving `acciones`: the returned `raices` once every
worker has returned, and `none` while `wg.Wait()` is still blocked. The
cursor is the `int64` of the program. -/
def obtenerRaicesEnterasConcurrente (polinomio : List Int) (cantidadRaices workers : Nat)
    (acciones : List Accion) : Option (List Int) :=
  let s := ejecutar ⟨polinomio, cantidadRaices, workers, .int64⟩ acciones
  if terminado s then some s.raices else none

/-- The infinite run driven by the schedule `σ` (`σ t` is the worker that
moves at time `t`), the caller never cancelling: the state at time `t`. -/
def estadoEn (cfg : Config) (σ : Nat → Nat) : Nat → Estado
  | 0 => inicial cfg
  | t + 1 => pasoWorker cfg (σ t) (estadoEn cfg σ t)

/-- The first `t` actions of the run driven by the schedule `σ`. -/
def prefijo (σ : Nat → Nat) (t : Nat) : List Accion :=
  (List.range t).map fun k => Accion.worker (σ k)

/-- A schedule in which each of the `workers` workers keeps taking steps. -/
def Justo (workers : Nat) (σ : Nat → Nat) : Prop :=
  ∀ id, id < workers → ∀ t, ∃ t', t ≤ t' ∧ σ t' = id

/-- The number of times worker `id` executes `n += int64(workers)` along
`acciones`, starting in state `s`. -/
def avancesDesde (cfg : Config) (id : Nat) : Estado → List Accion → Nat
  | _, [] => 0
  | s, a :: as =>
    (if a = Accion.worker id ∧ (s.ws[id]?.map fun w => w.pc) = some Pc.avanzar then 1 else 0)
      + avancesDesde cfg id (paso cfg a s) as

/-- The number of loop iterations worker `id` has completed along the run
`acciones`. -/
def iteraciones (cfg : Config) (id : Nat) (acciones : List Accion) : Nat :=
  avancesDesde cfg id (inicial cfg) acciones

/-- No cursor has overflowed along the run `acciones` of the program: each
worker `id` has completed a number `k` of iterations for which
`id + 1 + k * workers`, the value its cursor would have without overflow,
is still at most `2^63 - 1`. -/
def sinDesborde (polinomio : List Int) (cantidadRaices workers : Nat)
    (acciones : List Accion) : Bool :=
  (List.range workers).all fun id =>
    decide ((id : Int) + 1
      + (iteraciones ⟨polinomio, cantidadRaices, workers, .int64⟩ id acciones : Int)
        * (workers : Int) ≤ 2 ^ 63 - 1)

/-! ### Auxiliary notions for the proofs -/

/-- The value stored in the cursor when the mathematical result is `z`. -/
def Aritmetica.norm (ar : Aritmetica) (z : Int) : Int :=
  match ar with
  | .int64 => wrapInt64 z
  | .ilimitada => z

/-- Relational reading of `pasoLocal`, one constructor per branch of the
worker loop: `Trans cfg w raices cancelado w' raices' cancelado'`. -/
inductive Trans (cfg : Config) : Worker → List Int → Bool → Worker → List Int → Bool → Prop
  | selCancelado (n r c) : c = true → Trans cfg ⟨.select, n⟩ r c ⟨.fin, n⟩ r c
  | selSeguir (n r c) : c = false → Trans cfg ⟨.select, n⟩ r c ⟨.evalPos, n⟩ r c
  | posRaiz (n r c) : evalEsCero cfg.polinomio n = true →
      Trans cfg ⟨.evalPos, n⟩ r c ⟨.lockPos, n⟩ r c
  | posNoRaiz (n r c) : evalEsCero cfg.polinomio n = false →
      Trans cfg ⟨.evalPos, n⟩ r c ⟨.evalNeg, n⟩ r c
  | lockPosLleno (n r c) : cfg.cantidadRaices ≤ r.length →
      Trans cfg ⟨.lockPos, n⟩ r c ⟨.evalNeg, n⟩ r c
  | lockPosAgrega (n r c) : r.length + 1 < cfg.cantidadRaices →
      Trans cfg ⟨.lockPos, n⟩ r c ⟨.evalNeg, n⟩ (r ++ [n]) c
  | lockPosUltimo (n r c) : r.length + 1 = cfg.cantidadRaices →
      Trans cfg ⟨.lockPos, n⟩ r c ⟨.fin, n⟩ (r ++ [n]) true
  | negRaiz (n r c) : evalEsCero cfg.polinomio (negarDe cfg.cursor n) = true →
      Trans cfg ⟨.evalNeg, n⟩ r c ⟨.lockNeg, n⟩ r c
  | negNoRaiz (n r c) : evalEsCero cfg.polinomio (negarDe cfg.cursor n) = false →
      Trans cfg ⟨.evalNeg, n⟩ r c ⟨.avanzar, n⟩ r c
  | lockNegLleno (n r c) : cfg.cantidadRaices ≤ r.length →
      Trans cfg ⟨.lockNeg, n⟩ r c ⟨.avanzar, n⟩ r c
  | lockNegAgrega (n r c) : r.length + 1 < cfg.cantidadRaices →
      Trans cfg ⟨.lockNeg, n⟩ r c ⟨.avanzar, n⟩ (r ++ [negarDe cfg.cursor n]) c
  | lockNegUltimo (n r c) : r.length + 1 = cfg.cantidadRaices →
      Trans cfg ⟨.lockNeg, n⟩ r c ⟨.fin, n⟩ (r ++ [negarDe cfg.cursor n]) true
  | avanza (n r c) :
      Trans cfg ⟨.avanzar, n⟩ r c ⟨.select, cursorSiguienteDe cfg.cursor cfg.workers n⟩ r c
  | quieto (n r c) : Trans cfg ⟨.fin, n⟩ r c ⟨.fin, n⟩ r c

/-- Relational reading of `pasoLocal`, one constructor per branch of the
worker loop: `TransIdeal cfg w raices cancelado w' raices' cancelado'`. -/
inductive TransIdeal (cfg : Config) : Worker → List Int → Bool → Worker → List Int → Bool → Prop
  | selCancelado (n r c) : c = true → TransIdeal cfg ⟨.select, n⟩ r c ⟨.fin, n⟩ r c
  | selSeguir (n r c) : c = false → TransIdeal cfg ⟨.select, n⟩ r c ⟨.evalPos, n⟩ r c
  | posRaiz (n r c) : evalEsCero cfg.polinomio n = true →
      TransIdeal cfg ⟨.evalPos, n⟩ r c ⟨.lockPos, n⟩ r c
  | posNoRaiz (n r c) : evalEsCero cfg.polinomio n = false →
      TransIdeal cfg ⟨.evalPos, n⟩ r c ⟨.evalNeg, n⟩ r c
  | lockPosLleno (n r c) : cfg.cantidadRaices ≤ r.length →
      TransIdeal cfg ⟨.lockPos, n⟩ r c ⟨.evalNeg, n⟩ r c
  | lockPosAgrega (n r c) : r.length + 1 < cfg.cantidadRaices →
      TransIdeal cfg ⟨.lockPos, n⟩ r c ⟨.evalNeg, n⟩ (r ++ [n]) c
  | lockPosUltimo (n r c) : r.length + 1 = cfg.cantidadRaices →
      TransIdeal cfg ⟨.lockPos, n⟩ r c ⟨.fin, n⟩ (r ++ [n]) true
  | negRaiz (n r c) : evalEsCero cfg.polinomio (-n) = true →
      TransIdeal cfg ⟨.evalNeg, n⟩ r c ⟨.lockNeg, n⟩ r c
  | negNoRaiz (n r c) : evalEsCero cfg.polinomio (-n) = false →
      TransIdeal cfg ⟨.evalNeg, n⟩ r c ⟨.avanzar, n⟩ r c
  | lockNegLleno (n r c) : cfg.cantidadRaices ≤ r.length →
      TransIdeal cfg ⟨.lockNeg, n⟩ r c ⟨.avanzar, n⟩ r c
  | lockNegAgrega (n r c) : r.length + 1 < cfg.cantidadRaices →
      TransIdeal cfg ⟨.lockNeg, n⟩ r c ⟨.avanzar, n⟩ (r ++ [-n]) c
  | lockNegUltimo (n r c) : r.length + 1 = cfg.cantidadRaices →
      TransIdeal cfg ⟨.lockNeg, n⟩ r c ⟨.fin, n⟩ (r ++ [-n]) true
  | avanza (n r c) : TransIdeal cfg ⟨.avanzar, n⟩ r c ⟨.select, n + (cfg.workers : Int)⟩ r c
  | quieto (n r c) : TransIdeal cfg ⟨.fin, n⟩ r c ⟨.fin, n⟩ r c

/-- Candidate `c` lies in the lane of worker `id`: its magnitude is
`id + 1 + k * workers` for some `k`. -/
def EnCarril (workers id : Nat) (c : Int) : Prop :=
  ∃ k : Nat, |c| = (id : Int) + 1 + (k : Int) * (workers : Int)

/-- A worker in private state `w` has not yet gone past the locked region
for candidate `c`: it may still append `c`. -/
def PuedeAgregar (w : Worker) (c : Int) : Prop :=
  match w.pc with
  | .select | .evalPos | .lockPos => w.n ≤ |c|
  | .evalNeg | .lockNeg => w.n < |c| ∨ c = -w.n
  | .avanzar => w.n < |c|
  | .fin => False

/-- Position of a control point within one loop iteration. -/
def pcIdx : Pc → Nat
  | .select => 0
  | .evalPos => 1
  | .lockPos => 2
  | .evalNeg => 3
  | .lockNeg => 4
  | .avanzar => 5
  | .fin => 6

/-- Number of steps a worker needs at most to return once the context is
cancelled. -/
def distFin : Pc → Nat
  | .fin => 0
  | .select => 1
  | .avanzar => 2
  | .lockNeg => 3
  | .evalNeg => 4
  | .lockPos => 5
  | .evalPos => 6

/-- Distance to return of worker `id` at time `t` of a run. -/
def distEn (cfg : Config) (σ : Nat → Nat) (id t : Nat) : Nat :=
  match (estadoEn cfg σ t).ws[id]? with
  | some w => distFin w.pc
  | none => 0

/-- Progress measure of worker `id` at time `t` of a run: it grows with
every step the worker takes. -/
def medidaEn (cfg : Config) (σ : Nat → Nat) (id t : Nat) : Nat :=
  match (estadoEn cfg σ t).ws[id]? with
  | some w => 6 * iteraciones cfg id (prefijo σ t) + pcIdx w.pc
  | none => 0

/-- Candidate `x` has been dealt with: if it is a root it is in `raices`,
unless `raices` is full. -/
def Resuelto (cfg : Config) (r : List Int) (x : Int) : Prop :=
  evalEsCero cfg.polinomio x = true → x ∈ r ∨ cfg.cantidadRaices ≤ r.length

/-- A worker that has gone past the locked region of `+n` in its current
iteration has dealt with the candidate `n`. -/
def Hecho (cfg : Config) (w : Worker) (r : List Int) : Prop :=
  match w.pc with
  | .select | .evalPos | .lockPos | .fin => True
  | .evalNeg | .lockNeg | .avanzar => Resuelto cfg r w.n

/-- The schedule (worker ids) in which worker 0 of four runs alone on
`[1, -6, 11, -6]` until its cursor has gone all the way round the `int64`
range, the other three then taking one step each. -/
def vueltaCubica : List Nat :=
  List.replicate 5 0 ++ List.replicate (4 * (2 ^ 62 - 2)) 0 ++ List.replicate 8 0 ++ [1, 2, 3]

/-- The schedule (worker ids) in which the only worker runs on `[1, -2, 1]`
until its cursor has gone round the `int64` range to `-1`. -/
def vueltaCuadrado : List Nat :=
  List.replicate 5 0 ++ List.replicate (4 * (2 ^ 64 - 3)) 0 ++ List.replicate 4 0

/-- The enumeration `+1, -1, +2, -2, ..., +N, -N` of the candidates of
magnitude at most `N`. -/
def enumeracion : Nat → List Int
  | 0 => []
  | N + 1 => enumeracion N ++ [(N : Int) + 1, -((N : Int) + 1)]

/-- The roots among the candidates of magnitude at most `N`, in the order
of the enumeration. -/
def raicesHasta (polinomio : List Int) (N : Nat) : List Int :=
  (enumeracion N).filter (evalEsCero polinomio)

/-- The roots a lone worker with cursor `k + 1` at control point `pc` has
gone past, in the order of the enumeration. -/
def procesadosEn (polinomio : List Int) (pc : Pc) (k : Nat) : List Int :=
  match pc with
  | .select | .evalPos | .lockPos => raicesHasta polinomio k
  | .evalNeg | .lockNeg =>
    raicesHasta polinomio k ++ [(k : Int) + 1].filter (evalEsCero polinomio)
  | .avanzar | .fin => raicesHasta polinomio (k + 1)

/-! # Theorems -/

/-! ## Evaluator and stride lemmas -/

theorem evalLoop_eq (deg : Int) (x : Int) (cs : List Int) :
    ∀ (i : Nat) (sum : Int), (i : Int) + cs.length = deg + 1 →
      evalLoop deg x i cs sum
        = sum + ∑ j ∈ Finset.range cs.length, cs.getD j 0 * x ^ (cs.length - 1 - j) := by
  induction cs with
  | nil => intro i sum _; simp [evalLoop]
  | cons c cs ih =>
    intro i sum h
    simp only [List.length_cons, Nat.cast_add, Nat.cast_one] at h
    have hrec := ih (i + 1)
    have hlen : ((i + 1 : Nat) : Int) + cs.length = deg + 1 := by push_cast; omega
    rw [List.length_cons, Finset.sum_range_succ']
    simp only [List.getD_cons_succ, List.getD_cons_zero,
      Nat.add_sub_cancel, Nat.sub_zero]
    have hsum : ∑ j ∈ Finset.range cs.length, cs.getD j 0 * x ^ (cs.length - (j + 1))
        = ∑ j ∈ Finset.range cs.length, cs.getD j 0 * x ^ (cs.length - 1 - j) := by
      apply Finset.sum_congr rfl
      intro j _
      congr 2
      omega
    rw [hsum]
    unfold evalLoop
    by_cases h0 : deg - (i : Int) = 0
    · have hl : cs.length = 0 := by omega
      simp only [h0, if_true]
      rw [hrec _ hlen, hl]
      simp
    · simp only [h0, if_false]
      rw [hrec _ hlen]
      have hexp : deg - (i : Int) = (cs.length : Int) := by omega
      have hpos : ¬ ((cs.length : Int) ≤ 0) := by omega
      simp only [bigExp, hexp, hpos, if_false, Int.toNat_ofNat]
      ring

theorem evalEsCero_iff_sumaExacta (P : List Int) (x : Int) :
    evalEsCero P x = true ↔ sumaExacta P x = 0 := by
  unfold evalEsCero sumaExacta
  simp only [beq_iff_eq]
  rw [evalLoop_eq _ x P 0 0 (by push_cast; ring)]
  simp

theorem cursorEn_eq (w id k : Nat) : cursorEn w id k = (id : Int) + 1 + (k : Int) * (w : Int) := by
  induction k with
  | zero => simp [cursorEn, cursorInicial]
  | succ k ih => simp only [cursorEn, cursorSiguiente, ih]; push_cast; ring

theorem carril_unico {w i j k l : Nat} (hi : i < w) (hj : j < w)
    (h : i + k * w = j + l * w) : i = j ∧ k = l := by
  have h1 : (i + k * w) % w = (j + l * w) % w := by rw [h]
  simp only [Nat.add_mul_mod_self_right, Nat.mod_eq_of_lt hi, Nat.mod_eq_of_lt hj] at h1
  subst h1
  have h2 : k * w = l * w := by omega
  have hw : 0 < w := by omega
  exact ⟨rfl, Nat.eq_of_mul_eq_mul_right hw h2⟩

/-! ## Runs and steps -/

theorem ejecutarDesde_append (cfg : Config) (s : Estado) (xs ys : List Accion) :
    ejecutarDesde cfg s (xs ++ ys) = ejecutarDesde cfg (ejecutarDesde cfg s xs) ys := by
  simp [ejecutarDesde, List.foldl_append]

theorem ejecutarDesde_inv (cfg : Config) (I : Estado → Prop)
    (hstep : ∀ a s, I s → I (paso cfg a s)) :
    ∀ (acciones : List Accion) (s : Estado), I s → I (ejecutarDesde cfg s acciones) := by
  intro acciones
  induction acciones with
  | nil => intro s hs; simpa [ejecutarDesde] using hs
  | cons a as ih =>
    intro s hs
    have := ih (paso cfg a s) (hstep a s hs)
    simpa [ejecutarDesde] using this

/-- Induction over the reachable states. -/
theorem alcanzable_inv (cfg : Config) (I : Estado → Prop) (h0 : I (inicial cfg))
    (hw : ∀ id s, I s → I (pasoWorker cfg id s))
    (hc : ∀ s, I s → I { s with cancelado := true }) :
    ∀ s, Alcanzable cfg s → I s := by
  rintro s ⟨acciones, rfl⟩
  refine ejecutarDesde_inv cfg I ?_ acciones _ h0
  intro a s hs
  cases a with
  | worker id => exact hw id s hs
  | cancelarExterno => exact hc s hs

/-- Induction over the states reachable without external cancellation. -/
theorem alcanzableSinCancelar_inv (cfg : Config) (I : Estado → Prop) (h0 : I (inicial cfg))
    (hw : ∀ id s, I s → I (pasoWorker cfg id s)) :
    ∀ s, AlcanzableSinCancelar cfg s → I s := by
  rintro s ⟨ids, rfl⟩
  unfold ejecutar
  generalize inicial cfg = s0 at h0
  induction ids generalizing s0 with
  | nil => simpa [ejecutarDesde] using h0
  | cons a as ih =>
    have := ih (pasoWorker cfg a s0) (hw a s0 h0)
    simpa [ejecutarDesde, paso] using this

theorem alcanzable_of_sinCancelar {cfg : Config} {s : Estado}
    (h : AlcanzableSinCancelar cfg s) : Alcanzable cfg s := by
  obtain ⟨ids, h⟩ := h
  exact ⟨_, h⟩

/-- Shape of a worker step: either there is no such worker and nothing
changes, or the worker's private step is applied. -/
theorem pasoWorker_cases (cfg : Config) (id : Nat) (s : Estado) :
    (s.ws[id]? = none ∧ pasoWorker cfg id s = s) ∨
    ∃ w, s.ws[id]? = some w ∧
      pasoWorker cfg id s =
        { raices := (pasoLocal cfg w s.raices s.cancelado).2.1
          cancelado := (pasoLocal cfg w s.raices s.cancelado).2.2
          ws := s.ws.set id (pasoLocal cfg w s.raices s.cancelado).1 } := by
  unfold pasoWorker
  cases h : s.ws[id]? with
  | none => left; simp
  | some w => right; exact ⟨w, rfl, rfl⟩

/-- The critical region leaves `raices` alone or appends the candidate
while there is room; it sets the flag and returns exactly when the target
is reached by this append. -/
theorem regionCritica_cases (cfg : Config) (c : Int) (raices : List Int) (cancelado : Bool) :
    (cfg.cantidadRaices ≤ raices.length ∧
        regionCritica cfg c raices cancelado = (raices, cancelado, false)) ∨
    (raices.length + 1 < cfg.cantidadRaices ∧
        regionCritica cfg c raices cancelado = (raices ++ [c], cancelado, false)) ∨
    (raices.length + 1 = cfg.cantidadRaices ∧
        regionCritica cfg c raices cancelado = (raices ++ [c], true, true)) := by
  unfold regionCritica
  by_cases h1 : raices.length < cfg.cantidadRaices
  · by_cases h2 : raices.length + 1 < cfg.cantidadRaices
    · right; left
      refine ⟨h2, ?_⟩
      simp [h1]
      omega
    · right; right
      refine ⟨by omega, ?_⟩
      simp [h1]
      omega
  · left
    exact ⟨by omega, by simp [h1]⟩

theorem pasoLocal_trans (cfg : Config) (w : Worker) (r : List Int) (c : Bool) :
    Trans cfg w r c (pasoLocal cfg w r c).1 (pasoLocal cfg w r c).2.1
      (pasoLocal cfg w r c).2.2 := by
  rcases w with ⟨pc, n⟩
  cases pc
  · cases c <;> simp only [pasoLocal]
    · exact Trans.selSeguir _ _ _ rfl
    · exact Trans.selCancelado _ _ _ rfl
  · simp only [pasoLocal]
    split
    · exact Trans.posRaiz _ _ _ ‹_›
    · exact Trans.posNoRaiz _ _ _ ((Bool.not_eq_true _).mp ‹_›)
  · simp only [pasoLocal]
    rcases regionCritica_cases cfg n r c with ⟨h, e⟩ | ⟨h, e⟩ | ⟨h, e⟩ <;> rw [e]
    · exact Trans.lockPosLleno _ _ _ h
    · exact Trans.lockPosAgrega _ _ _ h
    · exact Trans.lockPosUltimo _ _ _ h
  · simp only [pasoLocal]
    split
    · exact Trans.negRaiz _ _ _ ‹_›
    · exact Trans.negNoRaiz _ _ _ ((Bool.not_eq_true _).mp ‹_›)
  · simp only [pasoLocal]
    rcases regionCritica_cases cfg (negarDe cfg.cursor n) r c with ⟨h, e⟩ | ⟨h, e⟩ | ⟨h, e⟩ <;> rw [e]
    · exact Trans.lockNegLleno _ _ _ h
    · exact Trans.lockNegAgrega _ _ _ h
    · exact Trans.lockNegUltimo _ _ _ h
  · simp only [pasoLocal]
    exact Trans.avanza _ _ _
  · simp only [pasoLocal]
    exact Trans.quieto _ _ _

/-- A worker step either changes nothing or replaces the worker's private
state and the shared state along one `Trans` transition. -/
theorem pasoWorker_trans (cfg : Config) (id : Nat) (s : Estado) :
    pasoWorker cfg id s = s ∨
    ∃ w w' r' c', s.ws[id]? = some w ∧ Trans cfg w s.raices s.cancelado w' r' c' ∧
      pasoWorker cfg id s = { raices := r', cancelado := c', ws := s.ws.set id w' } := by
  rcases pasoWorker_cases cfg id s with ⟨_, h⟩ | ⟨w, hw, h⟩
  · exact Or.inl h
  · exact Or.inr ⟨w, _, _, _, hw, pasoLocal_trans cfg w s.raices s.cancelado, h⟩

theorem getElem?_set_cases {α : Type} (l : List α) (i j : Nat) (a b : α)
    (h : (l.set i a)[j]? = some b) : (j = i ∧ b = a) ∨ (j ≠ i ∧ l[j]? = some b) := by
  by_cases hij : i = j
  · subst hij
    left
    have hlt : i < l.length := by
      by_contra hge
      have : (l.set i a)[i]? = none := by
        apply List.getElem?_eq_none
        simp; omega
      rw [this] at h; cases h
    rw [List.getElem?_set_self hlt] at h
    exact ⟨rfl, (Option.some.inj h).symm⟩
  · right
    rw [List.getElem?_set_ne hij] at h
    exact ⟨fun e => hij e.symm, h⟩

/-! ## Evaluator and stride partition -/

/-- C1: for every coefficient sequence `P` of degree `len(P) - 1 ≥ 1` and
every integer `x`, `evalEsCero P x` is true exactly when the exact integer
sum `Σ_i P[i] * x^(d-i)` is zero. -/
theorem evalEsCero_correcto (P : List Int) (x : Int)
    (_hd : 1 ≤ obtenerCantidadMaximaRaices P) :
    evalEsCero P x = true ↔
      ∑ i ∈ Finset.range P.length, P.getD i 0 * x ^ (P.length - 1 - i) = 0 :=
  evalEsCero_iff_sumaExacta P x

theorem evalEsCero_correcto_witness :
    1 ≤ obtenerCantidadMaximaRaices [1, -6, 11, -6] ∧
    (evalEsCero [1, -6, 11, -6] 2 = true ↔
      ∑ i ∈ Finset.range [1, -6, 11, -6].length,
        [1, -6, 11, -6].getD i 0 * (2 : Int) ^ ([1, -6, 11, -6].length - 1 - i) = 0) :=
  ⟨by decide, evalEsCero_correcto [1, -6, 11, -6] 2 (by decide)⟩

/-- C2: for every worker count `w ≥ 1` and every integer `n ≥ 1` there is
exactly one pair `(id, k)` with `id < w` such that the cursor of worker `id`
at iteration `k`, namely `id + 1 + k * w`, is `n`: the lanes are pairwise
disjoint and cover the positive integers. -/
theorem carriles_particion (w : Nat) (n : Int) (hw : 1 ≤ w) (hn : 1 ≤ n) :
    (∀ id k : Nat, cursorEn w id k = (id : Int) + 1 + (k : Int) * (w : Int)) ∧
    ∃! p : Nat × Nat, p.1 < w ∧ n = (p.1 : Int) + 1 + (p.2 : Int) * (w : Int) := by
  refine ⟨fun id k => cursorEn_eq w id k, ?_⟩
  obtain ⟨m, rfl⟩ : ∃ m : Nat, n = (m : Int) + 1 := ⟨(n - 1).toNat, by omega⟩
  have hmod := Nat.mod_add_div m w
  refine ⟨(m % w, m / w), ⟨Nat.mod_lt _ (by omega), ?_⟩, ?_⟩
  · have h2 : ((m % w : Nat) : Int) + ((m / w : Nat) : Int) * (w : Int) = (m : Int) := by
      rw [mul_comm]; exact_mod_cast hmod
    simp only at h2 ⊢
    omega
  · rintro ⟨i, k⟩ ⟨hi, hk⟩
    simp only at hi hk
    have hm : i + k * w = m % w + (m / w) * w := by
      have h3 : (i : Int) + (k : Int) * (w : Int) = (m : Int) := by omega
      have h4 : i + k * w = m := by exact_mod_cast h3
      rw [h4, mul_comm]; exact hmod.symm
    obtain ⟨h1, h2⟩ := carril_unico hi (Nat.mod_lt _ (by omega)) hm
    simp [h1, h2]

theorem carriles_particion_witness :
    1 ≤ 4 ∧ (1 : Int) ≤ 7 ∧
    (∀ id k : Nat, cursorEn 4 id k = (id : Int) + 1 + (k : Int) * ((4 : Nat) : Int)) ∧
    ∃! p : Nat × Nat, p.1 < 4 ∧ (7 : Int) = (p.1 : Int) + 1 + (p.2 : Int) * ((4 : Nat) : Int) :=
  ⟨by decide, by decide, carriles_particion 4 7 (by decide) (by decide)⟩

/-! ## Size bound and roots only -/

theorem obtener_eq_some {polinomio : List Int} {cantidadRaices workers : Nat}
    {acciones : List Accion} {l : List Int}
    (h : obtenerRaicesEnterasConcurrente polinomio cantidadRaices workers acciones = some l) :
    terminado (ejecutar ⟨polinomio, cantidadRaices, workers, .int64⟩ acciones) = true ∧
    (ejecutar ⟨polinomio, cantidadRaices, workers, .int64⟩ acciones).raices = l := by
  unfold obtenerRaicesEnterasConcurrente at h
  by_cases ht : terminado (ejecutar ⟨polinomio, cantidadRaices, workers, .int64⟩ acciones) = true
  · simp only [ht, if_true] at h
    exact ⟨ht, Option.some.inj h⟩
  · simp only [ht] at h
    cases h

theorem obtener_eq_none {polinomio : List Int} {cantidadRaices workers : Nat}
    {acciones : List Accion}
    (h : terminado (ejecutar ⟨polinomio, cantidadRaices, workers, .int64⟩ acciones) = false) :
    obtenerRaicesEnterasConcurrente polinomio cantidadRaices workers acciones = none := by
  unfold obtenerRaicesEnterasConcurrente
  simp [h]

/-- C3: in every reachable state of the step-relation model, whatever the
polynomial, the target count, the number of workers, the interleaving
(external cancellation included) and the reading of the cursor arithmetic,
`raices` holds at most `cantidadRaices` elements; so does the returned
list. -/
theorem raices_length_le (polinomio : List Int) (cantidadRaices workers : Nat)
    (acciones : List Accion) (ar : Aritmetica) :
    (ejecutar ⟨polinomio, cantidadRaices, workers, ar⟩ acciones).raices.length
      ≤ cantidadRaices ∧
    ∀ l, obtenerRaicesEnterasConcurrente polinomio cantidadRaices workers acciones = some l →
      l.length ≤ cantidadRaices := by
  have key : ∀ ar' : Aritmetica,
      (ejecutar ⟨polinomio, cantidadRaices, workers, ar'⟩ acciones).raices.length
        ≤ cantidadRaices := by
    intro ar'
    apply alcanzable_inv ⟨polinomio, cantidadRaices, workers, ar'⟩
      (fun s => s.raices.length ≤ cantidadRaices) _ _ _ _ ⟨acciones, rfl⟩
    · simp [inicial]
    · intro id s hs
      rcases pasoWorker_trans _ id s with h | ⟨w, w', r', c', _, ht, h⟩
      · rw [h]; exact hs
      · rw [h]
        cases ht <;> simp at * <;> omega
    · intro s hs; exact hs
  refine ⟨key ar, fun l hl => ?_⟩
  rw [← (obtener_eq_some hl).2]
  exact key .int64

theorem raices_length_le_witness :
    obtenerRaicesEnterasConcurrente [1, -6, 11, -6] 2 4
      ([0, 0, 0, 1, 1, 1, 3, 0, 0, 0, 2].map Accion.worker) = some [1, 2] ∧
    [(1 : Int), 2].length ≤ 2 :=
  ⟨by decide, (raices_length_le [1, -6, 11, -6] 2 4
    ([0, 0, 0, 1, 1, 1, 3, 0, 0, 0, 2].map Accion.worker) .int64).2 [1, 2] (by decide)⟩

/-- Invariant behind C4: `raices` holds roots only, and a worker waiting
for the lock has just seen its candidate evaluate to zero. -/
theorem raiz_inv (cfg : Config) (s : Estado) (h : Alcanzable cfg s) :
    (∀ r ∈ s.raices, evalEsCero cfg.polinomio r = true) ∧
    (∀ w ∈ s.ws, (w.pc = Pc.lockPos → evalEsCero cfg.polinomio w.n = true) ∧
      (w.pc = Pc.lockNeg → evalEsCero cfg.polinomio (negarDe cfg.cursor w.n) = true)) := by
  revert s
  apply alcanzable_inv
  · simp [inicial]
  · intro id s hs
    rcases pasoWorker_trans cfg id s with h | ⟨w, w', r', c', hw, ht, h⟩
    · rw [h]; exact hs
    · rw [h]
      obtain ⟨hr, hws⟩ := hs
      have hwmem := hws w (List.getElem?_mem hw)
      have key : (∀ r ∈ r', evalEsCero cfg.polinomio r = true) ∧
          (w'.pc = Pc.lockPos → evalEsCero cfg.polinomio w'.n = true) ∧
          (w'.pc = Pc.lockNeg → evalEsCero cfg.polinomio (negarDe cfg.cursor w'.n) = true) := by
        cases ht <;> simp_all <;>
          (rintro r (hr' | rfl); exacts [hr r hr', hwmem])
      refine ⟨key.1, ?_⟩
      intro x hx
      rcases List.mem_or_eq_of_mem_set hx with hx | rfl
      · exact hws x hx
      · exact key.2
  · intro s hs; exact hs

/-- C4: in every reachable state, for any polynomial, target count, worker
count and interleaving (external cancellation included), with the cursor
an `int64` as well as with an unbounded cursor, every element of
`raices` is a root: `evalEsCero polinomio r = true`. -/
theorem raices_son_raices (cfg : Config) (acciones : List Accion) :
    ∀ r ∈ (ejecutar cfg acciones).raices, evalEsCero cfg.polinomio r = true :=
  (raiz_inv cfg _ ⟨acciones, rfl⟩).1

theorem raices_son_raices_witness :
    (3 : Int) ∈ (ejecutar ⟨[1, -6, 11, -6], 3, 4, .int64⟩
      [Accion.worker 2, Accion.worker 2, Accion.cancelarExterno, Accion.worker 2]).raices ∧
    evalEsCero [1, -6, 11, -6] 3 = true :=
  ⟨by decide, raices_son_raices ⟨[1, -6, 11, -6], 3, 4, .int64⟩
    [Accion.worker 2, Accion.worker 2, Accion.cancelarExterno, Accion.worker 2] 3 (by decide)⟩

/-! ## Reachable states: cancellation and return -/

theorem alcanzable_paso {cfg : Config} {s : Estado} (h : Alcanzable cfg s) (a : Accion) :
    Alcanzable cfg (paso cfg a s) := by
  obtain ⟨acciones, rfl⟩ := h
  refine ⟨acciones ++ [a], ?_⟩
  simp [ejecutar, ejecutarDesde_append, ejecutarDesde]

theorem alcanzableSinCancelar_paso {cfg : Config} {s : Estado}
    (h : AlcanzableSinCancelar cfg s) (id : Nat) :
    AlcanzableSinCancelar cfg (pasoWorker cfg id s) := by
  obtain ⟨ids, rfl⟩ := h
  refine ⟨ids ++ [id], ?_⟩
  simp [ejecutar, ejecutarDesde_append, ejecutarDesde, paso]

/-- Induction over the reachable states, the reachability of the source
state being available in the step cases. -/
theorem alcanzable_ind (cfg : Config) (I : Estado → Prop) (h0 : I (inicial cfg))
    (hw : ∀ id s, Alcanzable cfg s → I s → I (pasoWorker cfg id s))
    (hc : ∀ s, Alcanzable cfg s → I s → I { s with cancelado := true }) :
    ∀ s, Alcanzable cfg s → I s := by
  intro s hs
  have : Alcanzable cfg s ∧ I s := by
    revert s
    apply alcanzable_inv
    · exact ⟨⟨[], rfl⟩, h0⟩
    · intro id s hs
      exact ⟨alcanzable_paso hs.1 (Accion.worker id), hw id s hs.1 hs.2⟩
    · intro s hs
      exact ⟨alcanzable_paso hs.1 Accion.cancelarExterno, hc s hs.1 hs.2⟩
  exact this.2

theorem alcanzableSinCancelar_ind (cfg : Config) (I : Estado → Prop) (h0 : I (inicial cfg))
    (hw : ∀ id s, AlcanzableSinCancelar cfg s → I s → I (pasoWorker cfg id s)) :
    ∀ s, AlcanzableSinCancelar cfg s → I s := by
  intro s hs
  have : AlcanzableSinCancelar cfg s ∧ I s := by
    revert s
    apply alcanzableSinCancelar_inv
    · exact ⟨⟨[], rfl⟩, h0⟩
    · intro id s hs
      exact ⟨alcanzableSinCancelar_paso hs.1 id, hw id s hs.1 hs.2⟩
  exact this.2

/-- The worker list keeps its length. -/
theorem ws_length (cfg : Config) (s : Estado) (h : Alcanzable cfg s) :
    s.ws.length = cfg.workers := by
  revert s
  apply alcanzable_inv
  · simp [inicial]
  · intro id s hs
    rcases pasoWorker_trans cfg id s with h | ⟨w, w', r', c', _, _, h⟩
    · rw [h]; exact hs
    · rw [h]; simpa using hs
  · intro s hs; exact hs

/-- A worker that has returned has seen or caused the cancellation. -/
theorem fin_cancelado (cfg : Config) (s : Estado) (h : Alcanzable cfg s) :
    ∀ w ∈ s.ws, w.pc = Pc.fin → s.cancelado = true := by
  revert s
  apply alcanzable_inv
  · simp [inicial]
  · intro id s hs
    rcases pasoWorker_trans cfg id s with h | ⟨w, w', r', c', hw, ht, h⟩
    · rw [h]; exact hs
    · rw [h]
      have hown := hs w (List.getElem?_mem hw)
      have key : (w'.pc = Pc.fin → c' = true) ∧ (s.cancelado = true → c' = true) := by
        cases ht <;> simp_all
      intro x hx hfin
      rcases List.mem_or_eq_of_mem_set hx with hx | rfl
      · exact key.2 (hs x hx hfin)
      · exact key.1 hfin
  · intro s _ w _ _; rfl

/-- Without external cancellation the flag is set only by the append that
fills `raices`, and that append sets it. -/
theorem cancelado_sinCancelar (cfg : Config) (s : Estado) (h : AlcanzableSinCancelar cfg s) :
    (s.cancelado = true → s.raices.length = cfg.cantidadRaices) ∧
    (s.cancelado = false → s.raices.length < cfg.cantidadRaices ∨ cfg.cantidadRaices = 0) := by
  revert s
  apply alcanzableSinCancelar_inv
  · simp only [inicial, List.length_nil]
    refine ⟨by simp, fun _ => ?_⟩
    omega
  · intro id s hs
    rcases pasoWorker_trans cfg id s with h | ⟨w, w', r', c', hw, ht, h⟩
    · rw [h]; exact hs
    · rw [h]
      obtain ⟨h1, h2⟩ := hs
      rcases s with ⟨r, c, ws⟩
      cases c <;> cases ht <;> simp_all

theorem terminado_eq_false {s : Estado} (hne : s.ws ≠ [])
    (h : ∀ w ∈ s.ws, w.pc ≠ Pc.fin) : terminado s = false := by
  cases hws : s.ws with
  | nil => exact absurd hws hne
  | cons w rest =>
    have hw := h w (by rw [hws]; exact List.mem_cons_self _ _)
    simp [terminado, hws, hw]

theorem ws_ne_nil {cfg : Config} {s : Estado} (h : Alcanzable cfg s) (hW : 1 ≤ cfg.workers) :
    s.ws ≠ [] := by
  intro hnil
  have := ws_length cfg s h
  rw [hnil] at this
  simp at this
  omega

/-- In a completed run with at least one worker and no external
cancellation, `raices` holds exactly `cantidadRaices` elements. -/
theorem terminado_length (cfg : Config) (hW : 1 ≤ cfg.workers) (s : Estado)
    (h : AlcanzableSinCancelar cfg s) (hfin : terminado s = true) :
    s.raices.length = cfg.cantidadRaices := by
  have hreach := alcanzable_of_sinCancelar h
  have hne := ws_ne_nil hreach hW
  obtain ⟨w, hw⟩ := List.exists_mem_of_ne_nil _ hne
  have hpc : w.pc = Pc.fin := by
    simp only [terminado, List.all_eq_true] at hfin
    simpa using hfin w hw
  exact (cancelado_sinCancelar cfg s h).1 (fin_cancelado cfg s hreach w hw hpc)

theorem pasoWorker_raices_lleno (cfg : Config) (id : Nat) (s : Estado)
    (h : s.raices.length = cfg.cantidadRaices) : (pasoWorker cfg id s).raices = s.raices := by
  rcases pasoWorker_trans cfg id s with e | ⟨w, w', r', c', _, ht, e⟩
  · rw [e]
  · rw [e]
    cases ht <;> first
      | rfl
      | (exfalso; omega)

theorem trans_cancelado_mono {cfg : Config} {w w' : Worker} {r r' : List Int} {c c' : Bool}
    (ht : Trans cfg w r c w' r' c') (h : c = true) : c' = true := by
  cases ht <;> simp_all

theorem pasoWorker_cancelado_mono (cfg : Config) (id : Nat) (s : Estado)
    (h : s.cancelado = true) : (pasoWorker cfg id s).cancelado = true := by
  rcases pasoWorker_trans cfg id s with e | ⟨w, w', r', c', _, ht, e⟩
  · rw [e]; exact h
  · rw [e]; exact trans_cancelado_mono ht h

/-- Once the flag is set without external cancellation, further worker
steps keep it set and leave `raices` alone. -/
theorem cancelado_estable (cfg : Config) (ids₂ : List Nat) :
    ∀ s : Estado, AlcanzableSinCancelar cfg s → s.cancelado = true →
      (ejecutarDesde cfg s (ids₂.map Accion.worker)).cancelado = true ∧
      (ejecutarDesde cfg s (ids₂.map Accion.worker)).raices = s.raices := by
  induction ids₂ with
  | nil => intro s _ hc; exact ⟨hc, rfl⟩
  | cons id rest ih =>
    intro s hs hc
    have hlen := (cancelado_sinCancelar cfg s hs).1 hc
    have h1 := pasoWorker_cancelado_mono cfg id s hc
    have h2 := pasoWorker_raices_lleno cfg id s hlen
    have := ih (pasoWorker cfg id s) (alcanzableSinCancelar_paso hs id) h1
    simp only [List.map_cons, ejecutarDesde, List.foldl_cons, paso] at this ⊢
    exact ⟨this.1, this.2.trans h2⟩

/-! ## Cancellation flag and full list -/

/-- C11: for `cantidadRaices ≥ 1` and no external cancellation, in every
reachable state (the locked region being one atomic step) the cancellation
flag is set exactly when `raices` holds `cantidadRaices` elements; once set,
it stays set and `raices` is not modified by any further step. This holds
with the cursor an `int64` as well as with an unbounded cursor. -/
theorem cancelado_iff_lleno (polinomio : List Int) (cantidadRaices workers : Nat)
    (hc : 1 ≤ cantidadRaices) (ids₁ ids₂ : List Nat) (ar : Aritmetica) :
    ((ejecutar ⟨polinomio, cantidadRaices, workers, ar⟩ (ids₁.map Accion.worker)).cancelado = true ↔
      (ejecutar ⟨polinomio, cantidadRaices, workers, ar⟩ (ids₁.map Accion.worker)).raices.length
        = cantidadRaices) ∧
    ((ejecutar ⟨polinomio, cantidadRaices, workers, ar⟩ (ids₁.map Accion.worker)).cancelado = true →
      (ejecutar ⟨polinomio, cantidadRaices, workers, ar⟩
        ((ids₁ ++ ids₂).map Accion.worker)).cancelado = true ∧
      (ejecutar ⟨polinomio, cantidadRaices, workers, ar⟩
        ((ids₁ ++ ids₂).map Accion.worker)).raices
        = (ejecutar ⟨polinomio, cantidadRaices, workers, ar⟩ (ids₁.map Accion.worker)).raices) := by
  have hreach : AlcanzableSinCancelar ⟨polinomio, cantidadRaices, workers, ar⟩
      (ejecutar ⟨polinomio, cantidadRaices, workers, ar⟩ (ids₁.map Accion.worker)) := ⟨ids₁, rfl⟩
  obtain ⟨h1, h2⟩ := cancelado_sinCancelar _ _ hreach
  constructor
  · constructor
    · exact h1
    · intro hlen
      cases hcan : (ejecutar ⟨polinomio, cantidadRaices, workers, ar⟩
          (ids₁.map Accion.worker)).cancelado with
      | true => rfl
      | false =>
        rcases h2 hcan with h | h
        · simp only at h hlen; omega
        · simp only at h; omega
  · intro hcan
    have := cancelado_estable _ ids₂ _ hreach hcan
    simpa only [List.map_append, ejecutar, ejecutarDesde_append] using this

theorem cancelado_iff_lleno_witness :
    1 ≤ 2 ∧
    (ejecutar ⟨[1, -6, 11, -6], 2, 2, .int64⟩ ([0, 0, 0, 1, 1, 1].map Accion.worker)).cancelado = true ∧
    (ejecutar ⟨[1, -6, 11, -6], 2, 2, .int64⟩ ([0, 0, 0, 1, 1, 1].map Accion.worker)).raices.length
      = 2 ∧
    (ejecutar ⟨[1, -6, 11, -6], 2, 2, .int64⟩
      (([0, 0, 0, 1, 1, 1] ++ [0, 0, 0, 0, 1]).map Accion.worker)).cancelado = true ∧
    (ejecutar ⟨[1, -6, 11, -6], 2, 2, .int64⟩
      (([0, 0, 0, 1, 1, 1] ++ [0, 0, 0, 0, 1]).map Accion.worker)).raices
      = (ejecutar ⟨[1, -6, 11, -6], 2, 2, .int64⟩ ([0, 0, 0, 1, 1, 1].map Accion.worker)).raices :=
  ⟨by decide, by decide,
    ((cancelado_iff_lleno [1, -6, 11, -6] 2 2 (by decide) [0, 0, 0, 1, 1, 1] [] .int64).1).mp
      (by decide),
    (cancelado_iff_lleno [1, -6, 11, -6] 2 2 (by decide) [0, 0, 0, 1, 1, 1]
      [0, 0, 0, 0, 1] .int64).2 (by decide)⟩

/-! ## No workers -/

theorem sin_workers_estado (polinomio : List Int) (cantidadRaices : Nat)
    (acciones : List Accion) (ar : Aritmetica) :
    (ejecutar ⟨polinomio, cantidadRaices, 0, ar⟩ acciones).raices = [] ∧
    (ejecutar ⟨polinomio, cantidadRaices, 0, ar⟩ acciones).ws = [] := by
  apply alcanzable_inv ⟨polinomio, cantidadRaices, 0, ar⟩ (fun s => s.raices = [] ∧ s.ws = [])
    _ _ _ _ ⟨acciones, rfl⟩
  · exact ⟨rfl, rfl⟩
  · intro id s hs
    rcases pasoWorker_cases ⟨polinomio, cantidadRaices, 0, ar⟩ id s with ⟨_, e⟩ | ⟨w, hw, _⟩
    · rw [e]; exact hs
    · rw [hs.2] at hw
      cases hw
  · intro s hs; exact hs

/-- C16: with `workers = 0` no worker exists and, for every polynomial and
every `cantidadRaices`, the function returns the empty list, at once (empty
interleaving) and whatever the environment does meanwhile. -/
theorem sin_workers_vacio (polinomio : List Int) (cantidadRaices : Nat)
    (acciones : List Accion) (ar : Aritmetica) :
    (inicial ⟨polinomio, cantidadRaices, 0, ar⟩).ws = [] ∧
    obtenerRaicesEnterasConcurrente polinomio cantidadRaices 0 [] = some [] ∧
    obtenerRaicesEnterasConcurrente polinomio cantidadRaices 0 acciones = some [] := by
  have key : ∀ acc : List Accion,
      obtenerRaicesEnterasConcurrente polinomio cantidadRaices 0 acc = some [] := by
    intro acc
    obtain ⟨h1, h2⟩ := sin_workers_estado polinomio cantidadRaices acc .int64
    unfold obtenerRaicesEnterasConcurrente
    simp [terminado, h1, h2]
  exact ⟨rfl, key [], key acciones⟩

/-! ## The unbounded cursor: lanes and duplicates -/

/-- With an unbounded cursor the steps are those of `TransIdeal`. -/
theorem trans_ideal {cfg : Config} (har : cfg.cursor = .ilimitada) {w w' : Worker}
    {r r' : List Int} {c c' : Bool} (ht : Trans cfg w r c w' r' c') :
    TransIdeal cfg w r c w' r' c' := by
  cases ht <;> simp only [har, negarDe, cursorSiguienteDe, cursorSiguiente] at * <;>
    constructor <;> assumption

theorem pasoWorker_transIdeal {cfg : Config} (har : cfg.cursor = .ilimitada) (id : Nat)
    (s : Estado) :
    pasoWorker cfg id s = s ∨
    ∃ w w' r' c', s.ws[id]? = some w ∧ TransIdeal cfg w s.raices s.cancelado w' r' c' ∧
      pasoWorker cfg id s = { raices := r', cancelado := c', ws := s.ws.set id w' } := by
  rcases pasoWorker_trans cfg id s with h | ⟨w, w', r', c', hw, ht, h⟩
  · exact Or.inl h
  · exact Or.inr ⟨w, w', r', c', hw, trans_ideal har ht, h⟩

theorem trans_cursor {cfg : Config} {w w' : Worker} {r r' : List Int} {c c' : Bool}
    (ht : TransIdeal cfg w r c w' r' c') :
    w'.n = w.n ∨ w'.n = w.n + (cfg.workers : Int) := by
  cases ht <;> simp

/-- The worker list keeps its length and, with an unbounded cursor, the
cursor of worker `i` stays in lane `i`: it is `i + 1 + k * workers` for some
`k`. -/
theorem base_inv (cfg : Config) (har : cfg.cursor = .ilimitada) (s : Estado)
    (h : Alcanzable cfg s) :
    s.ws.length = cfg.workers ∧
    ∀ (i : Nat) (w : Worker), s.ws[i]? = some w →
      ∃ k : Nat, w.n = (i : Int) + 1 + (k : Int) * (cfg.workers : Int) := by
  revert s
  apply alcanzable_inv
  · refine ⟨by simp [inicial], ?_⟩
    intro i w hw
    refine ⟨0, ?_⟩
    simp only [inicial, List.getElem?_map, Option.map_eq_some'] at hw
    obtain ⟨a, ha, rfl⟩ := hw
    have := (List.getElem?_eq_some_iff.mp ha).2
    simp at this
    simp [har, cursorInicialDe, cursorInicial, this]
  · intro id s hs
    rcases pasoWorker_transIdeal har id s with h | ⟨w, w', r', c', hw, ht, h⟩
    · rw [h]; exact hs
    · rw [h]
      refine ⟨by simpa using hs.1, ?_⟩
      intro j x hx
      rcases getElem?_set_cases _ _ _ _ _ hx with ⟨rfl, rfl⟩ | ⟨_, hx⟩
      · obtain ⟨k, hk⟩ := hs.2 _ _ hw
        rcases trans_cursor ht with e | e
        · exact ⟨k, by rw [e, hk]⟩
        · exact ⟨k + 1, by rw [e, hk]; push_cast; ring⟩
      · exact hs.2 _ _ hx
  · intro s hs; exact hs

theorem enCarril_unico {W i j : Nat} {c : Int} (hi : i < W) (hj : j < W)
    (h1 : EnCarril W i c) (h2 : EnCarril W j c) : i = j := by
  obtain ⟨k, hk⟩ := h1
  obtain ⟨l, hl⟩ := h2
  have h : (((i + k * W : Nat)) : Int) = ((j + l * W : Nat) : Int) := by
    push_cast; linarith
  exact (carril_unico hi hj (by exact_mod_cast h)).1

theorem trans_puedeAgregar_mono {cfg : Config} {w w' : Worker} {r r' : List Int} {c c' : Bool}
    (ht : TransIdeal cfg w r c w' r' c') (hW : 1 ≤ cfg.workers) (x : Int)
    (h : PuedeAgregar w' x) : PuedeAgregar w x := by
  have hW' : (1 : Int) ≤ (cfg.workers : Int) := by exact_mod_cast hW
  cases ht <;> simp only [PuedeAgregar] at h ⊢ <;> first
    | exact h
    | omega
    | (rcases h with h | h
       · omega
       · rw [h, abs_neg]; exact le_abs_self _)

/-- What a step does to `raices`: nothing, or it appends a candidate `±n`
that the worker could still append before the step and cannot after it. -/
theorem trans_raices {cfg : Config} {w w' : Worker} {r r' : List Int} {c c' : Bool}
    (ht : TransIdeal cfg w r c w' r' c') (hn : 1 ≤ w.n) :
    r' = r ∨ ∃ x, r' = r ++ [x] ∧ |x| = w.n ∧ PuedeAgregar w x ∧ ¬ PuedeAgregar w' x ∧
      r.length < cfg.cantidadRaices := by
  cases ht <;> first
    | exact Or.inl rfl
    | (right
       refine ⟨_, rfl, ?_⟩
       simp only at hn
       have habs := abs_of_pos (lt_of_lt_of_le Int.zero_lt_one hn)
       simp only [PuedeAgregar, abs_neg, habs]
       refine ⟨?_, ?_, ?_, ?_⟩ <;> first | omega | simp)

/-- Invariant behind the absence of duplicates, with an unbounded cursor:
`raices` has no repeated
element and no zero, and no worker can still append an element of `raices`
that lies in its lane. -/
theorem nodup_inv (cfg : Config) (har : cfg.cursor = .ilimitada) (s : Estado)
    (h : Alcanzable cfg s) :
    s.raices.Nodup ∧ (∀ r ∈ s.raices, r ≠ 0) ∧
    ∀ r ∈ s.raices, ∀ (i : Nat) (w : Worker), s.ws[i]? = some w →
      EnCarril cfg.workers i r → ¬ PuedeAgregar w r := by
  revert s
  apply alcanzable_ind
  · simp [inicial]
  · intro id s hreach hs
    rcases pasoWorker_transIdeal har id s with h | ⟨w, w', r', c', hw, ht, h⟩
    · rw [h]; exact hs
    · rw [h]
      obtain ⟨hnd, hnz, hpas⟩ := hs
      obtain ⟨hlen, hcar⟩ := base_inv cfg har s hreach
      have hid : id < cfg.workers := by
        rw [← hlen]
        exact (List.getElem?_eq_some_iff.mp hw).1
      obtain ⟨k, hk⟩ := hcar id w hw
      have hn : 1 ≤ w.n := by
        rw [hk]
        have : (0 : Int) ≤ (k : Int) * (cfg.workers : Int) := by positivity
        omega
      -- old elements stay out of reach of every worker
      have hold : ∀ r ∈ s.raices, ∀ (j : Nat) (x : Worker), (s.ws.set id w')[j]? = some x →
          EnCarril cfg.workers j r → ¬ PuedeAgregar x r := by
        intro r hr j x hx hj
        rcases getElem?_set_cases _ _ _ _ _ hx with ⟨rfl, rfl⟩ | ⟨_, hx⟩
        · exact fun hp => hpas r hr _ w hw hj (trans_puedeAgregar_mono ht (by omega) r hp)
        · exact hpas r hr j x hx hj
      rcases trans_raices ht hn with rfl | ⟨x, rfl, habs, hcan, hnot, _⟩
      · exact ⟨hnd, hnz, hold⟩
      · have hxcar : EnCarril cfg.workers id x := ⟨k, by rw [habs, hk]⟩
        have hxnot : x ∉ s.raices := fun hx => hpas x hx id w hw hxcar hcan
        refine ⟨?_, ?_, ?_⟩
        · rw [List.nodup_append]
          refine ⟨hnd, List.nodup_singleton x, ?_⟩
          intro a ha hb
          rw [List.mem_singleton] at hb
          exact hxnot (hb ▸ ha)
        · intro r hr
          rcases List.mem_append.mp hr with hr | hr
          · exact hnz r hr
          · rw [List.mem_singleton] at hr
            subst hr
            intro h0
            rw [h0, abs_zero] at habs
            omega
        · intro r hr j y hy hj
          rcases List.mem_append.mp hr with hr | hr
          · exact hold r hr j y hy hj
          · rw [List.mem_singleton] at hr
            subst hr
            have hjlt : j < cfg.workers := by
              have := (List.getElem?_eq_some_iff.mp hy).1
              rw [List.length_set, hlen] at this
              exact this
            have hji : j = id := enCarril_unico hjlt hid hj hxcar
            subst hji
            rcases getElem?_set_cases _ _ _ _ _ hy with ⟨_, rfl⟩ | ⟨hne, _⟩
            · exact hnot
            · exact absurd rfl hne
  · intro s _ hs; exact hs

/-- With an unbounded cursor, when the nonzero integer roots of the
polynomial all lie in a finite set `R` with fewer than `cantidadRaices`
elements and the caller never cancels, the flag is never set and no worker
returns. -/
theorem pocas_raices (cfg : Config) (har : cfg.cursor = .ilimitada) (R : Finset Int)
    (hR : ∀ x, x ≠ 0 → evalEsCero cfg.polinomio x = true → x ∈ R)
    (hcard : R.card < cfg.cantidadRaices) (s : Estado) (h : AlcanzableSinCancelar cfg s) :
    s.raices.length ≤ R.card ∧ s.cancelado = false ∧ ∀ w ∈ s.ws, w.pc ≠ Pc.fin := by
  have hreach := alcanzable_of_sinCancelar h
  obtain ⟨hnd, hnz, _⟩ := nodup_inv cfg har s hreach
  have hroot := (raiz_inv cfg s hreach).1
  have hsub : s.raices.toFinset ⊆ R := by
    intro x hx
    rw [List.mem_toFinset] at hx
    exact hR x (hnz x hx) (hroot x hx)
  have hlen : s.raices.length ≤ R.card := by
    rw [← List.toFinset_card_of_nodup hnd]
    exact Finset.card_le_card hsub
  have hc : s.cancelado = false := by
    cases hcan : s.cancelado with
    | false => rfl
    | true =>
      have := (cancelado_sinCancelar cfg s h).1 hcan
      omega
  refine ⟨hlen, hc, ?_⟩
  intro w hw hfin
  have := fin_cancelado cfg s hreach w hw hfin
  rw [hc] at this
  cases this

/-- With an unbounded cursor, when the nonzero integer roots of the
polynomial are exactly the `cantidadRaices` elements of `R`, a completed run
returns exactly `R`. -/
theorem terminado_raices (cfg : Config) (har : cfg.cursor = .ilimitada) (R : Finset Int)
    (hR : ∀ x, x ∈ R ↔ (x ≠ 0 ∧ evalEsCero cfg.polinomio x = true))
    (hcard : R.card = cfg.cantidadRaices) (hW : 1 ≤ cfg.workers) (s : Estado)
    (h : AlcanzableSinCancelar cfg s) (hfin : terminado s = true) :
    s.raices.toFinset = R := by
  have hreach := alcanzable_of_sinCancelar h
  obtain ⟨hnd, hnz, _⟩ := nodup_inv cfg har s hreach
  have hroot := (raiz_inv cfg s hreach).1
  have hlen := terminado_length cfg hW s h hfin
  apply Finset.eq_of_subset_of_card_le
  · intro x hx
    rw [List.mem_toFinset] at hx
    exact (hR x).mpr ⟨hnz x hx, hroot x hx⟩
  · rw [List.toFinset_card_of_nodup hnd, hlen, hcard]

/-! ## Iterations, the `int64` cursor and its unbounded reading -/

theorem wrapInt64_add (a b : Int) : wrapInt64 (wrapInt64 a + b) = wrapInt64 (a + b) := by
  unfold wrapInt64
  omega

theorem wrapInt64_of_range {z : Int} (h1 : -2 ^ 63 ≤ z) (h2 : z ≤ 2 ^ 63 - 1) :
    wrapInt64 z = z := by
  unfold wrapInt64
  omega

theorem wrapInt64_range (z : Int) : -2 ^ 63 ≤ wrapInt64 z ∧ wrapInt64 z ≤ 2 ^ 63 - 1 := by
  unfold wrapInt64
  omega

theorem norm_add (ar : Aritmetica) (a b : Int) : ar.norm (ar.norm a + b) = ar.norm (a + b) := by
  cases ar
  · exact wrapInt64_add a b
  · rfl

theorem cursorSiguienteDe_eq (ar : Aritmetica) (workers : Nat) (n : Int) :
    cursorSiguienteDe ar workers n = ar.norm (n + (workers : Int)) := by
  cases ar <;> rfl

theorem cursorInicialDe_eq (ar : Aritmetica) (id : Nat) :
    cursorInicialDe ar id = ar.norm ((id : Int) + 1) := by
  cases ar <;> rfl

theorem ejecutar_snoc (cfg : Config) (acciones : List Accion) (a : Accion) :
    ejecutar cfg (acciones ++ [a]) = paso cfg a (ejecutar cfg acciones) := by
  simp [ejecutar, ejecutarDesde_append, ejecutarDesde]

theorem avancesDesde_append (cfg : Config) (id : Nat) :
    ∀ (xs ys : List Accion) (s : Estado),
      avancesDesde cfg id s (xs ++ ys)
        = avancesDesde cfg id s xs + avancesDesde cfg id (ejecutarDesde cfg s xs) ys := by
  intro xs
  induction xs with
  | nil => intro ys s; simp [avancesDesde, ejecutarDesde]
  | cons a as ih =>
    intro ys s
    rw [List.cons_append]
    simp only [avancesDesde]
    rw [ih]
    simp only [ejecutarDesde, List.foldl_cons]
    omega

/-- The last action adds one iteration exactly when it is a step of the
worker at `n += int64(workers)`. -/
theorem iteraciones_snoc (cfg : Config) (id : Nat) (acciones : List Accion) (a : Accion) :
    iteraciones cfg id (acciones ++ [a]) = iteraciones cfg id acciones +
      (if a = Accion.worker id ∧
          ((ejecutar cfg acciones).ws[id]?.map fun w => w.pc) = some Pc.avanzar
        then 1 else 0) := by
  simp only [iteraciones, avancesDesde_append, avancesDesde, ejecutar, Nat.add_zero]

theorem iteraciones_otro (cfg : Config) (id : Nat) (acciones : List Accion) (a : Accion)
    (h : a ≠ Accion.worker id) :
    iteraciones cfg id (acciones ++ [a]) = iteraciones cfg id acciones := by
  rw [iteraciones_snoc]
  simp [h]

theorem iteraciones_propio (cfg : Config) (id : Nat) (acciones : List Accion) (w : Worker)
    (hw : (ejecutar cfg acciones).ws[id]? = some w) :
    iteraciones cfg id (acciones ++ [Accion.worker id]) = iteraciones cfg id acciones +
      (if w.pc = Pc.avanzar then 1 else 0) := by
  rw [iteraciones_snoc, hw]
  simp

/-- A step moves the cursor exactly when it is `n += int64(workers)`. -/
theorem trans_avanzar {cfg : Config} {w w' : Worker} {r r' : List Int} {c c' : Bool}
    (ht : Trans cfg w r c w' r' c') :
    (w.pc = Pc.avanzar ∧ w'.n = cursorSiguienteDe cfg.cursor cfg.workers w.n) ∨
    (w.pc ≠ Pc.avanzar ∧ w'.n = w.n) := by
  cases ht <;> simp

/-- The cursor of worker `i` after `k` completed iterations holds
`i + 1 + k * workers`, reduced to an `int64` in the program. -/
theorem cursor_inv (cfg : Config) (acciones : List Accion) :
    ∀ (i : Nat) (w : Worker), (ejecutar cfg acciones).ws[i]? = some w →
      w.n = cfg.cursor.norm
        ((i : Int) + 1 + (iteraciones cfg i acciones : Int) * (cfg.workers : Int)) := by
  induction acciones using List.reverseRecOn with
  | nil =>
    intro i w hw
    simp only [ejecutar, ejecutarDesde, List.foldl_nil, inicial, List.getElem?_map,
      Option.map_eq_some'] at hw
    obtain ⟨a, ha, rfl⟩ := hw
    have := (List.getElem?_eq_some_iff.mp ha).2
    simp at this
    simp [iteraciones, avancesDesde, cursorInicialDe_eq, this]
  | append_singleton acciones a ih =>
    intro i w hw
    rw [ejecutar_snoc] at hw
    cases a with
    | cancelarExterno =>
      rw [iteraciones_otro _ _ _ _ (by simp)]
      exact ih i w hw
    | worker j =>
      simp only [paso] at hw
      rcases pasoWorker_cases cfg j (ejecutar cfg acciones) with ⟨hnone, e⟩ | ⟨w0, hw0, e⟩
      · rw [e] at hw
        have hij : i ≠ j := by
          rintro rfl
          rw [hnone] at hw
          cases hw
        rw [iteraciones_otro _ _ _ _ (by simpa using fun h => hij h.symm)]
        exact ih i w hw
      · rw [e] at hw
        rcases getElem?_set_cases _ _ _ _ _ hw with ⟨rfl, rfl⟩ | ⟨hne, hw⟩
        · rw [iteraciones_propio cfg i acciones w0 hw0]
          have h0 := ih i w0 hw0
          rcases trans_avanzar
            (pasoLocal_trans cfg w0 (ejecutar cfg acciones).raices
              (ejecutar cfg acciones).cancelado) with ⟨hpc, hn⟩ | ⟨hpc, hn⟩
          · rw [hn, cursorSiguienteDe_eq, h0, norm_add, if_pos hpc]
            congr 1
            push_cast
            ring
          · rw [hn, h0, if_neg hpc]
            simp
        · rw [iteraciones_otro _ _ _ _ (by simpa using fun h => hne h.symm)]
          exact ih i w hw

theorem sinDesborde_iff (polinomio : List Int) (cantidadRaices workers : Nat)
    (acciones : List Accion) :
    sinDesborde polinomio cantidadRaices workers acciones = true ↔
      ∀ id, id < workers → (id : Int) + 1
        + (iteraciones ⟨polinomio, cantidadRaices, workers, .int64⟩ id acciones : Int)
          * (workers : Int) ≤ 2 ^ 63 - 1 := by
  simp [sinDesborde, List.all_eq_true]

theorem sinDesborde_snoc {polinomio : List Int} {cantidadRaices workers : Nat}
    {acciones : List Accion} {a : Accion}
    (h : sinDesborde polinomio cantidadRaices workers (acciones ++ [a]) = true) :
    sinDesborde polinomio cantidadRaices workers acciones = true := by
  rw [sinDesborde_iff] at h ⊢
  intro id hid
  have h1 := h id hid
  rw [iteraciones_snoc] at h1
  have h2 : (iteraciones ⟨polinomio, cantidadRaices, workers, .int64⟩ id acciones : Int)
      * (workers : Int) ≤
      ((iteraciones ⟨polinomio, cantidadRaices, workers, .int64⟩ id acciones +
        (if a = Accion.worker id ∧
          ((ejecutar ⟨polinomio, cantidadRaices, workers, .int64⟩ acciones).ws[id]?.map
            fun w => w.pc) = some Pc.avanzar then 1 else 0) : Nat) : Int) * (workers : Int) := by
    apply mul_le_mul_of_nonneg_right _ (by positivity)
    exact_mod_cast Nat.le_add_right _ _
  omega

/-- While it is in the positive `int64` range and stays there, a cursor is
handled alike by the program and by its unbounded reading. -/
theorem pasoLocal_sim (polinomio : List Int) (cantidadRaices workers : Nat) (w : Worker)
    (r : List Int) (b : Bool) (h1 : 1 ≤ w.n) (h2 : w.n ≤ 2 ^ 63 - 1)
    (h3 : w.pc = Pc.avanzar → w.n + (workers : Int) ≤ 2 ^ 63 - 1) :
    pasoLocal ⟨polinomio, cantidadRaices, workers, .int64⟩ w r b
      = pasoLocal ⟨polinomio, cantidadRaices, workers, .ilimitada⟩ w r b := by
  rcases w with ⟨pc, n⟩
  simp only at h1 h2 h3
  have hneg : wrapInt64 (-n) = -n := wrapInt64_of_range (by omega) (by omega)
  cases pc
  case avanzar =>
    have := h3 rfl
    have hpos : (0 : Int) ≤ (workers : Int) := by positivity
    simp only [pasoLocal, cursorSiguienteDe, cursorSiguiente64, cursorSiguiente]
    rw [wrapInt64_of_range (by omega) (by omega)]
  all_goals simp only [pasoLocal, negarDe, hneg, regionCritica]

/-- Until a cursor overflows, the program and its unbounded reading are in
the same state. -/
theorem simulacion (polinomio : List Int) (cantidadRaices workers : Nat) :
    ∀ acciones : List Accion, sinDesborde polinomio cantidadRaices workers acciones = true →
      ejecutar ⟨polinomio, cantidadRaices, workers, .int64⟩ acciones
        = ejecutar ⟨polinomio, cantidadRaices, workers, .ilimitada⟩ acciones := by
  intro acciones
  induction acciones using List.reverseRecOn with
  | nil =>
    intro h
    rw [sinDesborde_iff] at h
    simp only [ejecutar, ejecutarDesde, List.foldl_nil, inicial, Estado.mk.injEq, true_and]
    apply List.map_congr_left
    intro id hid
    have hid' := List.mem_range.mp hid
    have := h id hid'
    have hpos : (0 : Int) ≤ (iteraciones ⟨polinomio, cantidadRaices, workers, .int64⟩ id []
      : Int) * (workers : Int) := mul_nonneg (Int.ofNat_nonneg _) (Int.ofNat_nonneg _)
    simp only [cursorInicialDe, cursorInicial64, cursorInicial, Worker.mk.injEq, true_and]
    exact wrapInt64_of_range (by omega) (by omega)
  | append_singleton acciones a ih =>
    intro h
    have hpre := sinDesborde_snoc h
    have hs := ih hpre
    rw [ejecutar_snoc, ejecutar_snoc, ← hs]
    cases a with
    | cancelarExterno => rfl
    | worker j =>
      simp only [paso, pasoWorker]
      cases hw : (ejecutar ⟨polinomio, cantidadRaices, workers, .int64⟩ acciones).ws[j]? with
      | none => rfl
      | some w =>
        have hj : j < workers := by
          have hlen : (ejecutar ⟨polinomio, cantidadRaices, workers, .int64⟩ acciones).ws.length
              = workers := ws_length ⟨polinomio, cantidadRaices, workers, .int64⟩ _ ⟨acciones, rfl⟩
          rw [← hlen]
          exact (List.getElem?_eq_some_iff.mp hw).1
        have hn := cursor_inv ⟨polinomio, cantidadRaices, workers, .int64⟩ acciones j w hw
        have hb := (sinDesborde_iff _ _ _ _).mp hpre j hj
        have hb' := (sinDesborde_iff _ _ _ _).mp h j hj
        have hpos : (0 : Int) ≤
            (iteraciones ⟨polinomio, cantidadRaices, workers, .int64⟩ j acciones : Int)
              * (workers : Int) := mul_nonneg (Int.ofNat_nonneg _) (Int.ofNat_nonneg _)
        simp only [Aritmetica.norm] at hn
        rw [wrapInt64_of_range (by omega) (by omega)] at hn
        dsimp only
        rw [pasoLocal_sim polinomio cantidadRaices workers w _ _ (by omega) (by omega)]
        intro hpc
        rw [iteraciones_propio _ j acciones w hw, if_pos hpc] at hb'
        push_cast at hb'
        rw [hn]
        linarith
/-! ## Once round the `int64` range -/

/-- Four steps take a worker through an iteration in which neither
candidate is a root. -/
theorem iteracion_sin_raiz (cfg : Config) (har : cfg.cursor = .int64) (n : Int)
    (r : List Int) (rest : List Worker)
    (h1 : evalEsCero cfg.polinomio n = false)
    (h2 : evalEsCero cfg.polinomio (wrapInt64 (-n)) = false) :
    ejecutarDesde cfg ⟨r, false, ⟨.select, n⟩ :: rest⟩ (List.replicate 4 (Accion.worker 0))
      = ⟨r, false, ⟨.select, wrapInt64 (n + (cfg.workers : Int))⟩ :: rest⟩ := by
  simp [ejecutarDesde, paso, pasoWorker, pasoLocal, h1, h2, har, negarDe, cursorSiguienteDe,
    cursorSiguiente64, List.replicate]

/-- Worker 0 running alone goes through `m` iterations in `4 * m` steps
when none of the candidates on its way is a root. -/
theorem tramo_sin_raices (cfg : Config) (har : cfg.cursor = .int64) (r : List Int)
    (rest : List Worker) :
    ∀ (m : Nat) (a : Int),
      (∀ j : Nat, j < m →
        evalEsCero cfg.polinomio (wrapInt64 (a + (j : Int) * (cfg.workers : Int))) = false ∧
        evalEsCero cfg.polinomio
          (wrapInt64 (-wrapInt64 (a + (j : Int) * (cfg.workers : Int)))) = false) →
      ejecutarDesde cfg ⟨r, false, ⟨.select, wrapInt64 a⟩ :: rest⟩
          (List.replicate (4 * m) (Accion.worker 0))
        = ⟨r, false, ⟨.select, wrapInt64 (a + (m : Int) * (cfg.workers : Int))⟩ :: rest⟩ := by
  intro m
  induction m with
  | zero => intro a _; simp [ejecutarDesde]
  | succ m ih =>
    intro a h
    have h0 := h 0 (Nat.succ_pos m)
    simp only [Nat.cast_zero, zero_mul, add_zero] at h0
    rw [show 4 * (m + 1) = 4 + 4 * m by omega, List.replicate_add, ejecutarDesde_append,
      iteracion_sin_raiz cfg har _ r rest h0.1 h0.2, wrapInt64_add, ih (a + (cfg.workers : Int))]
    · congr 4
      push_cast
      ring
    · intro j hj
      have := h (j + 1) (by omega)
      have e : a + ((j + 1 : Nat) : Int) * (cfg.workers : Int)
          = a + (cfg.workers : Int) + (j : Int) * (cfg.workers : Int) := by
        push_cast
        ring
      rw [e] at this
      exact this

theorem cuadrado_raices (x : Int) : evalEsCero [1, -2, 1] x = true ↔ x = 1 := by
  rw [evalEsCero_iff_sumaExacta]
  simp only [sumaExacta, List.length_cons, List.length_nil, Finset.sum_range_succ,
    Finset.sum_range_zero]
  simp only [List.getD_cons_zero, List.getD_cons_succ]
  constructor
  · intro hx
    have h2 : (x - 1) * (x - 1) = 0 := by
      simp at hx
      linear_combination hx
    rcases mul_eq_zero.mp h2 with h | h <;> omega
  · rintro rfl
    decide

theorem cubica_raices_todas (x : Int) :
    evalEsCero [1, -6, 11, -6] x = true ↔ x = 1 ∨ x = 2 ∨ x = 3 := by
  rw [evalEsCero_iff_sumaExacta]
  simp only [sumaExacta, List.length_cons, List.length_nil, Finset.sum_range_succ,
    Finset.sum_range_zero]
  simp only [List.getD_cons_zero, List.getD_cons_succ]
  constructor
  · intro hx
    have h2 : (x - 1) * ((x - 2) * (x - 3)) = 0 := by
      simp at hx
      linear_combination hx
    rcases mul_eq_zero.mp h2 with h | h
    · left; omega
    · rcases mul_eq_zero.mp h with h | h
      · right; left; omega
      · right; right; omega
  · rintro (rfl | rfl | rfl) <;> decide

/-- On `[1, -2, 1]` with target 2 the only worker collects the root 1, goes
round the `int64` range and collects it again: the run completes with
`[1, 1]`. -/
theorem cuadrado_vuelta :
    ejecutar ⟨[1, -2, 1], 2, 1, .int64⟩ (vueltaCuadrado.map Accion.worker)
      = ⟨[1, 1], true, [⟨.fin, -1⟩]⟩ := by
  have h1 : ejecutarDesde ⟨[1, -2, 1], 2, 1, .int64⟩ (inicial ⟨[1, -2, 1], 2, 1, .int64⟩)
      (List.replicate 5 (Accion.worker 0)) = ⟨[1], false, [⟨.select, wrapInt64 2⟩]⟩ := by
    decide
  have h2 := tramo_sin_raices ⟨[1, -2, 1], 2, 1, .int64⟩ rfl [1] [] (2 ^ 64 - 3) 2 (by
    intro j hj
    simp only [← Bool.not_eq_true, cuadrado_raices]
    unfold wrapInt64
    push_cast
    omega)
  have h3 : wrapInt64 (2 + ((2 ^ 64 - 3 : Nat) : Int) * ((1 : Nat) : Int)) = -1 := by
    norm_num [wrapInt64]
  simp only [h3] at h2
  have h4 : ejecutarDesde ⟨[1, -2, 1], 2, 1, .int64⟩ ⟨[1], false, [⟨.select, -1⟩]⟩
      (List.replicate 4 (Accion.worker 0)) = ⟨[1, 1], true, [⟨.fin, -1⟩]⟩ := by
    decide
  rw [vueltaCuadrado, List.map_append, List.map_append, List.map_replicate,
    List.map_replicate, List.map_replicate, ejecutar, ejecutarDesde_append,
    ejecutarDesde_append, h1, h2, h4]

/-- On `[1, -6, 11, -6]` with target 3, worker 0 of four running alone
collects 1, goes round the `int64` range, collects 3 at `n = -3` and 1
again at `n = 1`: the run completes with `[1, 3, 1]`. -/
theorem cubica_vuelta :
    ejecutar ⟨[1, -6, 11, -6], 3, 4, .int64⟩ (vueltaCubica.map Accion.worker)
      = ⟨[1, 3, 1], true, [⟨.fin, 1⟩, ⟨.fin, 2⟩, ⟨.fin, 3⟩, ⟨.fin, 4⟩]⟩ := by
  have h1 : ejecutarDesde ⟨[1, -6, 11, -6], 3, 4, .int64⟩
      (inicial ⟨[1, -6, 11, -6], 3, 4, .int64⟩) (List.replicate 5 (Accion.worker 0))
      = ⟨[1], false, [⟨.select, wrapInt64 5⟩, ⟨.select, 2⟩, ⟨.select, 3⟩, ⟨.select, 4⟩]⟩ := by
    decide
  have h2 := tramo_sin_raices ⟨[1, -6, 11, -6], 3, 4, .int64⟩ rfl [1]
    [⟨.select, 2⟩, ⟨.select, 3⟩, ⟨.select, 4⟩] (2 ^ 62 - 2) 5 (by
    intro j hj
    simp only [← Bool.not_eq_true, cubica_raices_todas]
    unfold wrapInt64
    push_cast
    omega)
  have h3 : wrapInt64 (5 + ((2 ^ 62 - 2 : Nat) : Int) * ((4 : Nat) : Int)) = -3 := by
    norm_num [wrapInt64]
  simp only [h3] at h2
  have h4 : ejecutarDesde ⟨[1, -6, 11, -6], 3, 4, .int64⟩
      ⟨[1], false, [⟨.select, -3⟩, ⟨.select, 2⟩, ⟨.select, 3⟩, ⟨.select, 4⟩]⟩
      (List.replicate 8 (Accion.worker 0))
      = ⟨[1, 3, 1], true, [⟨.fin, 1⟩, ⟨.select, 2⟩, ⟨.select, 3⟩, ⟨.select, 4⟩]⟩ := by
    decide
  have h5 : ejecutarDesde ⟨[1, -6, 11, -6], 3, 4, .int64⟩
      ⟨[1, 3, 1], true, [⟨.fin, 1⟩, ⟨.select, 2⟩, ⟨.select, 3⟩, ⟨.select, 4⟩]⟩
      [Accion.worker 1, Accion.worker 2, Accion.worker 3]
      = ⟨[1, 3, 1], true, [⟨.fin, 1⟩, ⟨.fin, 2⟩, ⟨.fin, 3⟩, ⟨.fin, 4⟩]⟩ := by
    decide
  rw [vueltaCubica, List.map_append, List.map_append, List.map_append, List.map_replicate,
    List.map_replicate, List.map_replicate, ejecutar, ejecutarDesde_append,
    ejecutarDesde_append, ejecutarDesde_append, h1, h2, h4]
  exact h5

theorem obtener_of_ejecutar {polinomio : List Int} {cantidadRaices workers : Nat}
    {acciones : List Accion} {s : Estado}
    (h : ejecutar ⟨polinomio, cantidadRaices, workers, .int64⟩ acciones = s)
    (hfin : terminado s = true) :
    obtenerRaicesEnterasConcurrente polinomio cantidadRaices workers acciones
      = some s.raices := by
  unfold obtenerRaicesEnterasConcurrente
  simp only [h, hfin, if_true]
/-! ## Duplicates -/

theorem cubica_raices (x : Int) :
    (x ≠ 0 ∧ evalEsCero [1, -6, 11, -6] x = true) ↔ x ∈ ({1, 2, 3} : Finset Int) := by
  rw [evalEsCero_iff_sumaExacta]
  simp only [sumaExacta, List.length_cons, List.length_nil, Finset.sum_range_succ,
    Finset.sum_range_zero, Finset.mem_insert, Finset.mem_singleton]
  simp only [List.getD_cons_zero, List.getD_cons_succ]
  constructor
  · rintro ⟨_, hx⟩
    have h2 : (x - 1) * ((x - 2) * (x - 3)) = 0 := by
      simp at hx
      linear_combination hx
    rcases mul_eq_zero.mp h2 with h | h
    · left; omega
    · rcases mul_eq_zero.mp h with h | h
      · right; left; omega
      · right; right; omega
  · rintro (rfl | rfl | rfl) <;> decide

/-- C14: with the cursor an unbounded integer, in every reachable state,
whatever the polynomial (also one that vanishes at 0, such as `[1, -1, 0]`),
the number of workers and the interleaving, every cursor is at least 1, so
that neither candidate `n`, `-n` is 0, and every element of `raices` is
nonzero. -/
theorem cero_nunca_candidato (polinomio : List Int) (cantidadRaices workers : Nat)
    (acciones : List Accion) :
    evalEsCero [1, -1, 0] 0 = true ∧
    (∀ w ∈ (ejecutar ⟨polinomio, cantidadRaices, workers, .ilimitada⟩ acciones).ws,
      1 ≤ w.n ∧ w.n ≠ 0 ∧ -w.n ≠ 0) ∧
    (∀ r ∈ (ejecutar ⟨polinomio, cantidadRaices, workers, .ilimitada⟩ acciones).raices, r ≠ 0) := by
  have hreach : Alcanzable ⟨polinomio, cantidadRaices, workers, .ilimitada⟩
      (ejecutar ⟨polinomio, cantidadRaices, workers, .ilimitada⟩ acciones) := ⟨acciones, rfl⟩
  refine ⟨by decide, ?_, (nodup_inv _ rfl _ hreach).2.1⟩
  intro w hw
  obtain ⟨i, hi⟩ := List.mem_iff_getElem?.mp hw
  obtain ⟨k, hk⟩ := (base_inv _ rfl _ hreach).2 i w hi
  have : (0 : Int) ≤ (k : Int) * (workers : Int) := by positivity
  simp only at hk
  omega

theorem cero_nunca_candidato_witness :
    (1 : Int) ∈ (ejecutar ⟨[1, -1, 0], 2, 1, .ilimitada⟩
      ([0, 0, 0, 0, 0, 0].map Accion.worker)).raices ∧ (1 : Int) ≠ 0 :=
  ⟨by decide, (cero_nunca_candidato [1, -1, 0] 2 1 ([0, 0, 0, 0, 0, 0].map Accion.worker)).2.2
    1 (by decide)⟩

/-! ## One worker: a sequential scan -/

theorem take_lleno {α : Type} (P Q : List α) (c : Nat) (h : c ≤ (P.take c).length) :
    (P ++ Q).take c = P.take c := by
  rw [List.length_take] at h
  exact List.take_append_of_le_length (by omega)

theorem take_agrega {α : Type} (P : List α) (x : α) (c : Nat) (h : (P.take c).length < c) :
    (P ++ [x]).take c = P.take c ++ [x] := by
  rw [List.length_take] at h
  have hP : P.length < c := by omega
  rw [List.take_of_length_le (by simp; omega), List.take_of_length_le (by omega)]

theorem raicesHasta_succ (polinomio : List Int) (k : Nat) :
    raicesHasta polinomio (k + 1) =
      raicesHasta polinomio k ++ [(k : Int) + 1].filter (evalEsCero polinomio) ++
        [-((k : Int) + 1)].filter (evalEsCero polinomio) := by
  simp only [raicesHasta, enumeracion]
  rw [show ([(k : Int) + 1, -((k : Int) + 1)] : List Int)
    = [(k : Int) + 1] ++ [-((k : Int) + 1)] from rfl]
  simp only [List.filter_append, List.append_assoc]

theorem enumeracion_le {N M : Nat} (h : N ≤ M) :
    ∃ Z, enumeracion M = enumeracion N ++ Z := by
  induction h with
  | refl => exact ⟨[], by simp⟩
  | step _ ih =>
    obtain ⟨Z, hZ⟩ := ih
    exact ⟨Z ++ _, by rw [enumeracion, hZ, List.append_assoc]⟩

theorem enumeracion_abs_le (N : Nat) : ∀ a ∈ enumeracion N, |a| ≤ (N : Int) := by
  induction N with
  | zero => intro a ha; cases ha
  | succ N ih =>
    intro a ha
    simp only [enumeracion, List.mem_append, List.mem_cons, List.mem_singleton,
      List.not_mem_nil, or_false] at ha
    push_cast
    rcases ha with ha | rfl | rfl
    · have := ih a ha; omega
    · rw [abs_of_nonneg (by omega)]
    · rw [abs_neg, abs_of_nonneg (by omega)]

theorem enumeracion_pairwise (N : Nat) :
    (enumeracion N).Pairwise fun a b => |a| < |b| ∨ (0 < a ∧ b = -a) := by
  induction N with
  | zero => exact List.Pairwise.nil
  | succ N ih =>
    rw [enumeracion, List.pairwise_append]
    refine ⟨ih, ?_, ?_⟩
    · simp only [List.pairwise_cons, List.mem_singleton, forall_eq, List.not_mem_nil,
        false_implies, implies_true, List.Pairwise.nil, and_true]
      right
      omega
    · intro a ha b hb
      have h1 := enumeracion_abs_le N a ha
      left
      simp only [List.mem_cons, List.mem_singleton, List.not_mem_nil, or_false] at hb
      rcases hb with rfl | rfl
      · rw [abs_of_nonneg (a := (N : Int) + 1) (by omega)]; omega
      · rw [abs_neg, abs_of_nonneg (a := (N : Int) + 1) (by omega)]; omega

/-- With a single worker, an unbounded cursor and no external
cancellation, a step keeps
`raices` equal to the first `cantidadRaices` roots the worker has gone
past. -/
theorem trans_secuencial {cfg : Config} {w w' : Worker} {r r' : List Int} {c c' : Bool}
    (ht : TransIdeal cfg w r c w' r' c') (hW : cfg.workers = 1) (k : Nat)
    (hk : w.n = (k : Int) + 1)
    (hpos : w.pc = Pc.lockPos → evalEsCero cfg.polinomio w.n = true)
    (hneg : w.pc = Pc.lockNeg → evalEsCero cfg.polinomio (-w.n) = true)
    (hcan : c = true → r.length = cfg.cantidadRaices)
    (hr : r = (procesadosEn cfg.polinomio w.pc k).take cfg.cantidadRaices) :
    ∃ k' : Nat, w'.n = (k' : Int) + 1 ∧
      r' = (procesadosEn cfg.polinomio w'.pc k').take cfg.cantidadRaices := by
  cases ht <;> simp only at hk hpos hneg <;> subst hk
  case selCancelado hc =>
    refine ⟨k, rfl, ?_⟩
    have hlen := hcan hc
    simp only [procesadosEn] at hr ⊢
    rw [raicesHasta_succ, List.append_assoc, take_lleno _ _ _ (by rw [← hr]; omega)]
    exact hr
  case selSeguir => exact ⟨k, rfl, hr⟩
  case posRaiz => exact ⟨k, rfl, hr⟩
  case posNoRaiz hno =>
    refine ⟨k, rfl, ?_⟩
    simp only [procesadosEn, List.filter_cons, hno, List.filter_nil, List.append_nil] at hr ⊢
    simpa using hr
  case lockPosLleno hfull =>
    refine ⟨k, rfl, ?_⟩
    simp only [procesadosEn] at hr ⊢
    rw [take_lleno _ _ _ (by rw [← hr]; exact hfull)]
    exact hr
  case lockPosAgrega hroom =>
    refine ⟨k, rfl, ?_⟩
    have he := hpos trivial
    simp only [procesadosEn, List.filter_cons, he, if_true, List.filter_nil] at hr ⊢
    rw [take_agrega _ _ _ (by rw [← hr]; omega), ← hr]
  case lockPosUltimo hlast =>
    refine ⟨k, rfl, ?_⟩
    have he := hpos trivial
    simp only [procesadosEn] at hr ⊢
    rw [raicesHasta_succ]
    simp only [List.filter_cons, he, if_true, List.filter_nil]
    have h1 := take_agrega (raicesHasta cfg.polinomio k) ((k : Int) + 1) cfg.cantidadRaices
      (by rw [← hr]; omega)
    rw [take_lleno _ _ _ (by rw [h1, ← hr]; simp; omega), h1, ← hr]
  case negRaiz => exact ⟨k, rfl, hr⟩
  case negNoRaiz hno =>
    refine ⟨k, rfl, ?_⟩
    simp only [procesadosEn] at hr ⊢
    rw [raicesHasta_succ]
    have hf : List.filter (evalEsCero cfg.polinomio) [-((k : Int) + 1)] = [] := by
      simp only [List.filter_cons, hno, List.filter_nil, Bool.false_eq_true, if_false]
    rw [hf, List.append_nil]
    exact hr
  case lockNegLleno hfull =>
    refine ⟨k, rfl, ?_⟩
    simp only [procesadosEn] at hr ⊢
    rw [raicesHasta_succ, take_lleno _ _ _ (by rw [← hr]; exact hfull)]
    exact hr
  case lockNegAgrega hroom =>
    refine ⟨k, rfl, ?_⟩
    have he := hneg trivial
    simp only [procesadosEn] at hr ⊢
    rw [raicesHasta_succ]
    have hf : List.filter (evalEsCero cfg.polinomio) [-((k : Int) + 1)]
        = [-((k : Int) + 1)] := by
      simp only [List.filter_cons, he, List.filter_nil, if_true]
    rw [hf, take_agrega _ _ _ (by rw [← hr]; omega), ← hr]
  case lockNegUltimo hlast =>
    refine ⟨k, rfl, ?_⟩
    have he := hneg trivial
    simp only [procesadosEn] at hr ⊢
    rw [raicesHasta_succ]
    have hf : List.filter (evalEsCero cfg.polinomio) [-((k : Int) + 1)]
        = [-((k : Int) + 1)] := by
      simp only [List.filter_cons, he, List.filter_nil, if_true]
    rw [hf, take_agrega _ _ _ (by rw [← hr]; omega), ← hr]
  case avanza =>
    refine ⟨k + 1, by rw [hW]; push_cast; ring, ?_⟩
    simpa only [procesadosEn] using hr
  case quieto => exact ⟨k, rfl, hr⟩

/-- With a single worker, an unbounded cursor and no external cancellation,
`raices` is at all
times the list of the first `cantidadRaices` roots the worker has gone
past. -/
theorem secuencial_inv (polinomio : List Int) (cantidadRaices : Nat) (s : Estado)
    (h : AlcanzableSinCancelar ⟨polinomio, cantidadRaices, 1, .ilimitada⟩ s) :
    ∀ w, s.ws[0]? = some w → ∃ k : Nat, w.n = (k : Int) + 1 ∧
      s.raices = (procesadosEn polinomio w.pc k).take cantidadRaices := by
  revert s
  apply alcanzableSinCancelar_ind
  · intro w hw
    have hw0 : (inicial ⟨polinomio, cantidadRaices, 1, .ilimitada⟩).ws
        = [⟨Pc.select, cursorInicial 0⟩] := rfl
    rw [hw0, List.getElem?_cons_zero, Option.some.injEq] at hw
    subst hw
    exact ⟨0, by simp [cursorInicial], by simp [procesadosEn, raicesHasta, enumeracion, inicial]⟩
  · intro id s hreach hs
    rcases @pasoWorker_transIdeal ⟨polinomio, cantidadRaices, 1, .ilimitada⟩ rfl id s with
      e | ⟨w, w', r', c', hw, ht, e⟩
    · rw [e]; exact hs
    · rw [e]
      have hreach' := alcanzable_of_sinCancelar hreach
      have hlen := ws_length _ s hreach'
      have hid : id = 0 := by
        have := (List.getElem?_eq_some_iff.mp hw).1
        simp only at hlen
        omega
      subst hid
      obtain ⟨k, hk, hr⟩ := hs w hw
      have hlock := (raiz_inv _ s hreach').2 w (List.getElem?_mem hw)
      have hcan := (cancelado_sinCancelar _ s hreach).1
      obtain ⟨k', hk', hr'⟩ := trans_secuencial ht rfl k hk hlock.1 hlock.2 hcan hr
      intro x hx
      rcases getElem?_set_cases _ _ _ _ _ hx with ⟨_, rfl⟩ | ⟨hne, _⟩
      · exact ⟨k', hk', hr'⟩
      · exact absurd rfl hne

/-- C12, as stated, fails, in two ways. When the caller cancels at once,
the run with one worker on `[1, -6, 11, -6]` and target 3 completes with the
empty list, whereas the first three roots of the enumeration are
`[1, 2, 3]`. And on `[1, -2, 1]` with target 2, the worker goes round the
`int64` range and the completed run returns `[1, 1]`, whereas the
enumeration filtered by `evalEsCero` holds the single root 1, and 1 does not
precede itself in the order of the enumeration. -/
theorem un_worker_no_secuencial :
    (obtenerRaicesEnterasConcurrente [1, -6, 11, -6] 3 1
        [Accion.cancelarExterno, Accion.worker 0] = some [] ∧
      ((enumeracion 3).filter (evalEsCero [1, -6, 11, -6])).take 3 = [1, 2, 3]) ∧
    (obtenerRaicesEnterasConcurrente [1, -2, 1] 2 1 (vueltaCuadrado.map Accion.worker)
        = some [1, 1] ∧
      (∀ M, ((enumeracion M).filter (evalEsCero [1, -2, 1])).take 2 ≠ [1, 1]) ∧
      ¬ ([1, 1] : List Int).Pairwise (fun a b => |a| < |b| ∨ (0 < a ∧ b = -a))) := by
  refine ⟨⟨by decide, by decide⟩, obtener_of_ejecutar cuadrado_vuelta rfl, ?_, by decide⟩
  intro M h
  have hp : (((enumeracion M).filter (evalEsCero [1, -2, 1])).take 2).Pairwise
      (fun a b => |a| < |b| ∨ (0 < a ∧ b = -a)) :=
    ((enumeracion_pairwise M).sublist (List.filter_sublist _)).sublist (List.take_sublist 2 _)
  rw [h] at hp
  revert hp
  decide

/-- C12, amended: with one worker the search is a sequential scan as long
as the caller does not cancel and the `int64` cursor has not overflowed:
whenever it completes under these conditions, the returned list has
`cantidadRaices` elements and is the list of the first `cantidadRaices`
elements of the enumeration `+1, -1, +2, -2, ...` filtered by `evalEsCero`
(of every long enough initial segment of it); hence `+n` precedes `-n`
and absolute values never decrease along the list. -/
theorem un_worker_secuencial (polinomio : List Int) (cantidadRaices : Nat)
    (ids : List Nat) (l : List Int)
    (h : obtenerRaicesEnterasConcurrente polinomio cantidadRaices 1 (ids.map Accion.worker)
      = some l)
    (hsd : sinDesborde polinomio cantidadRaices 1 (ids.map Accion.worker) = true) :
    l.length = cantidadRaices ∧
    (∃ N, ∀ M, N ≤ M →
      l = ((enumeracion M).filter (evalEsCero polinomio)).take cantidadRaices) ∧
    l.Pairwise (fun a b => |a| < |b| ∨ (0 < a ∧ b = -a)) := by
  obtain ⟨hfin, rfl⟩ := obtener_eq_some h
  rw [simulacion _ _ _ _ hsd] at hfin ⊢
  have hreach : AlcanzableSinCancelar ⟨polinomio, cantidadRaices, 1, .ilimitada⟩
      (ejecutar ⟨polinomio, cantidadRaices, 1, .ilimitada⟩ (ids.map Accion.worker)) := ⟨ids, rfl⟩
  have hlen := terminado_length ⟨polinomio, cantidadRaices, 1, .ilimitada⟩ (le_refl _) _ hreach hfin
  have hws := ws_length _ _ (alcanzable_of_sinCancelar hreach)
  obtain ⟨w, hw⟩ : ∃ w, (ejecutar ⟨polinomio, cantidadRaices, 1, .ilimitada⟩
      (ids.map Accion.worker)).ws[0]? = some w :=
    ⟨_, List.getElem?_eq_getElem (by simp only at hws; omega)⟩
  have hpc : w.pc = Pc.fin := by
    simp only [terminado, List.all_eq_true] at hfin
    simpa using hfin w (List.getElem?_mem hw)
  obtain ⟨k, _, hr⟩ := secuencial_inv polinomio cantidadRaices _ hreach w hw
  rw [hpc] at hr
  simp only [procesadosEn] at hr
  have hall : ∀ M, k + 1 ≤ M →
      (ejecutar ⟨polinomio, cantidadRaices, 1, .ilimitada⟩ (ids.map Accion.worker)).raices
        = ((enumeracion M).filter (evalEsCero polinomio)).take cantidadRaices := by
    intro M hM
    obtain ⟨Z, hZ⟩ := enumeracion_le hM
    rw [hZ, List.filter_append]
    rw [take_lleno _ _ _ (by
      have : (List.take cantidadRaices (raicesHasta polinomio (k + 1))).length
          = cantidadRaices := by rw [← hr]; exact hlen
      unfold raicesHasta at this
      omega)]
    exact hr
  refine ⟨hlen, ⟨k + 1, hall⟩, ?_⟩
  rw [hr]
  exact ((enumeracion_pairwise (k + 1)).sublist (List.filter_sublist _)).sublist
    (List.take_sublist _ _)

theorem un_worker_secuencial_witness :
    obtenerRaicesEnterasConcurrente [1, 0, -4] 2 1
      ([0, 0, 0, 0, 0, 0, 0, 0, 0, 0, 0, 0, 0, 0, 0].map Accion.worker) = some [2, -2] ∧
    sinDesborde [1, 0, -4] 2 1
      ([0, 0, 0, 0, 0, 0, 0, 0, 0, 0, 0, 0, 0, 0, 0].map Accion.worker) = true ∧
    [(2 : Int), -2].length = 2 ∧
    (∃ N, ∀ M, N ≤ M →
      [(2 : Int), -2] = ((enumeracion M).filter (evalEsCero [1, 0, -4])).take 2) ∧
    [(2 : Int), -2].Pairwise (fun a b => |a| < |b| ∨ (0 < a ∧ b = -a)) :=
  ⟨by decide, by decide, un_worker_secuencial [1, 0, -4] 2
    [0, 0, 0, 0, 0, 0, 0, 0, 0, 0, 0, 0, 0, 0, 0] [2, -2] (by decide) (by decide)⟩

/-! ## Which roots are returned -/

theorem set_mismo {α : Type} (l : List α) (i : Nat) (a : α) (h : l[i]? = some a) :
    l.set i a = l := by
  apply List.ext_getElem?
  intro j
  by_cases hij : i = j
  · subst hij
    rw [List.getElem?_set_self (List.getElem?_eq_some_iff.mp h).1, h]
  · rw [List.getElem?_set_ne hij]

/-- Once every worker has returned, no step changes the state. -/
theorem terminado_fijo (cfg : Config) (id : Nat) (s : Estado) (h : terminado s = true) :
    pasoWorker cfg id s = s := by
  rcases pasoWorker_cases cfg id s with ⟨_, e⟩ | ⟨w, hw, e⟩
  · exact e
  · have hpc : w.pc = Pc.fin := by
      simp only [terminado, List.all_eq_true] at h
      simpa using h w (List.getElem?_mem hw)
    rcases w with ⟨pc, n⟩
    simp only at hpc
    subst hpc
    rw [e]
    simp only [pasoLocal]
    rw [set_mismo _ _ _ hw]

theorem pasoWorker_length (cfg : Config) (id : Nat) (s : Estado) :
    (pasoWorker cfg id s).ws.length = s.ws.length := by
  rcases pasoWorker_trans cfg id s with e | ⟨w, w', r', c', _, _, e⟩
  · rw [e]
  · rw [e]; simp

/-- With a single worker, a run without external cancellation is the
sequence of the steps of that worker: only their number depends on the
schedule. -/
theorem un_worker_iterado (cfg : Config) (ids : List Nat) :
    ∀ s : Estado, s.ws.length = 1 →
      ejecutarDesde cfg s (ids.map Accion.worker) = (pasoWorker cfg 0)^[ids.count 0] s := by
  induction ids with
  | nil => intro s _; rfl
  | cons id rest ih =>
    intro s hs
    have hcons : ejecutarDesde cfg s ((id :: rest).map Accion.worker)
        = ejecutarDesde cfg (pasoWorker cfg id s) (rest.map Accion.worker) := rfl
    rw [hcons]
    by_cases h0 : id = 0
    · subst h0
      rw [ih _ (by rw [pasoWorker_length, hs]), List.count_cons_self,
        Function.iterate_succ_apply]
    · have hnone : s.ws[id]? = none := List.getElem?_eq_none (by omega)
      have hsame : pasoWorker cfg id s = s := by
        rcases pasoWorker_cases cfg id s with ⟨_, e⟩ | ⟨w, hw, _⟩
        · exact e
        · rw [hnone] at hw; cases hw
      rw [hsame, ih s hs, List.count_cons_of_ne (Ne.symm h0)]

/-- With a single worker, two completed runs without external cancellation
end in the same state. -/
theorem un_worker_determinista (cfg : Config) (hW : cfg.workers = 1) (ids₁ ids₂ : List Nat)
    (h₁ : terminado (ejecutar cfg (ids₁.map Accion.worker)) = true)
    (h₂ : terminado (ejecutar cfg (ids₂.map Accion.worker)) = true) :
    ejecutar cfg (ids₁.map Accion.worker) = ejecutar cfg (ids₂.map Accion.worker) := by
  have hlen : (inicial cfg).ws.length = 1 := by simp [inicial, hW]
  have key : ∀ a b : Nat, a ≤ b →
      terminado ((pasoWorker cfg 0)^[a] (inicial cfg)) = true →
      (pasoWorker cfg 0)^[b] (inicial cfg) = (pasoWorker cfg 0)^[a] (inicial cfg) := by
    intro a b hab hfin
    obtain ⟨d, rfl⟩ := Nat.exists_eq_add_of_le hab
    rw [Nat.add_comm, Function.iterate_add_apply]
    exact Function.iterate_fixed (terminado_fijo cfg 0 _ hfin) d
  simp only [ejecutar] at h₁ h₂ ⊢
  rw [un_worker_iterado cfg ids₁ _ hlen] at h₁ ⊢
  rw [un_worker_iterado cfg ids₂ _ hlen] at h₂ ⊢
  rcases Nat.le_total (ids₁.count 0) (ids₂.count 0) with h | h
  · exact (key _ _ h h₁).symm
  · exact key _ _ h h₂

/-- C8, as stated, fails: `[1, -6, 11, -6]` has the three integer roots
1, 2, 3, at least `cantidadRaices = 2`, yet with two workers one completed
run returns `[1, 3]` and another `[1, 2]`. With `cantidadRaices = 3` and four
workers, one completed run returns `[1, 2, 3]` and another, in which the
`int64` cursor of worker 0 overflows, `[1, 3, 1]`. -/
theorem conjunto_depende_del_orden :
    (evalEsCero [1, -6, 11, -6] 1 = true ∧ evalEsCero [1, -6, 11, -6] 2 = true ∧
      evalEsCero [1, -6, 11, -6] 3 = true) ∧
    obtenerRaicesEnterasConcurrente [1, -6, 11, -6] 2 2
      ([0, 0, 0, 0, 0, 0, 0, 0, 0, 1].map Accion.worker) = some [1, 3] ∧
    obtenerRaicesEnterasConcurrente [1, -6, 11, -6] 2 2
      ([0, 0, 0, 1, 1, 1, 0, 0, 0, 0].map Accion.worker) = some [1, 2] ∧
    ¬ (∀ (ids₁ ids₂ : List Nat) (l₁ l₂ : List Int),
      obtenerRaicesEnterasConcurrente [1, -6, 11, -6] 2 2 (ids₁.map Accion.worker) = some l₁ →
      obtenerRaicesEnterasConcurrente [1, -6, 11, -6] 2 2 (ids₂.map Accion.worker) = some l₂ →
      ∀ x, x ∈ l₁ ↔ x ∈ l₂) ∧
    obtenerRaicesEnterasConcurrente [1, -6, 11, -6] 3 4
      ([0, 0, 0, 1, 1, 1, 2, 2, 2, 0, 0, 0, 1, 1, 1, 3].map Accion.worker) = some [1, 2, 3] ∧
    obtenerRaicesEnterasConcurrente [1, -6, 11, -6] 3 4 (vueltaCubica.map Accion.worker)
      = some [1, 3, 1] ∧
    ¬ (∀ x : Int, x ∈ [1, 2, 3] ↔ x ∈ [1, 3, 1]) := by
  refine ⟨by decide, by decide, by decide, fun h => ?_, by decide,
    obtener_of_ejecutar cubica_vuelta rfl, fun h => absurd ((h 2).mp (by decide)) (by decide)⟩
  have h3 := h [0, 0, 0, 0, 0, 0, 0, 0, 0, 1] [0, 0, 0, 1, 1, 1, 0, 0, 0, 0] [1, 3] [1, 2]
    (by decide) (by decide) 3
  revert h3
  decide

/-- C8, amended: with one worker, any two completed runs without external
cancellation return the same list, whatever the polynomial and the target.
With any number of workers, when the polynomial has at most
`cantidadRaices ≥ 1` distinct nonzero integer roots (`R` is their set), any
two runs that complete without external cancellation before the `int64`
cursor of a worker overflows return lists with the same elements, namely
the elements of `R`. -/
theorem conjunto_determinista :
    (∀ (polinomio : List Int) (cantidadRaices : Nat) (ids₁ ids₂ : List Nat) (l₁ l₂ : List Int),
      obtenerRaicesEnterasConcurrente polinomio cantidadRaices 1 (ids₁.map Accion.worker)
        = some l₁ →
      obtenerRaicesEnterasConcurrente polinomio cantidadRaices 1 (ids₂.map Accion.worker)
        = some l₂ →
      l₁ = l₂) ∧
    (∀ (polinomio : List Int) (cantidadRaices workers : Nat) (R : Finset Int),
      (∀ x, x ∈ R ↔ (x ≠ 0 ∧ evalEsCero polinomio x = true)) →
      R.card ≤ cantidadRaices → 1 ≤ cantidadRaices → 1 ≤ workers →
      ∀ (ids₁ ids₂ : List Nat) (l₁ l₂ : List Int),
        obtenerRaicesEnterasConcurrente polinomio cantidadRaices workers
          (ids₁.map Accion.worker) = some l₁ →
        obtenerRaicesEnterasConcurrente polinomio cantidadRaices workers
          (ids₂.map Accion.worker) = some l₂ →
        sinDesborde polinomio cantidadRaices workers (ids₁.map Accion.worker) = true →
        sinDesborde polinomio cantidadRaices workers (ids₂.map Accion.worker) = true →
        (∀ x, x ∈ l₁ ↔ x ∈ R) ∧ (∀ x, x ∈ l₁ ↔ x ∈ l₂)) := by
  constructor
  · intro polinomio cantidadRaices ids₁ ids₂ l₁ l₂ h₁ h₂
    obtain ⟨hf₁, rfl⟩ := obtener_eq_some h₁
    obtain ⟨hf₂, rfl⟩ := obtener_eq_some h₂
    rw [un_worker_determinista ⟨polinomio, cantidadRaices, 1, .int64⟩ rfl ids₁ ids₂ hf₁ hf₂]
  · intro polinomio cantidadRaices workers R hR hcard _ hW ids₁ ids₂ l₁ l₂ h₁ h₂ hs₁ hs₂
    have key : ∀ (ids : List Nat) (l : List Int),
        obtenerRaicesEnterasConcurrente polinomio cantidadRaices workers
          (ids.map Accion.worker) = some l →
        sinDesborde polinomio cantidadRaices workers (ids.map Accion.worker) = true →
        ∀ x, x ∈ l ↔ x ∈ R := by
      intro ids l h hsd x
      obtain ⟨hfin, rfl⟩ := obtener_eq_some h
      rw [simulacion _ _ _ _ hsd] at hfin ⊢
      have hreach : AlcanzableSinCancelar ⟨polinomio, cantidadRaices, workers, .ilimitada⟩
          (ejecutar ⟨polinomio, cantidadRaices, workers, .ilimitada⟩ (ids.map Accion.worker)) :=
        ⟨ids, rfl⟩
      rcases Nat.lt_or_ge R.card cantidadRaices with hlt | hge
      · obtain ⟨_, _, hno⟩ := pocas_raices ⟨polinomio, cantidadRaices, workers, .ilimitada⟩ rfl
          R (fun x h0 hx => (hR x).mpr ⟨h0, hx⟩) hlt _ hreach
        have := terminado_eq_false
          (@ws_ne_nil ⟨polinomio, cantidadRaices, workers, .ilimitada⟩ _
            (alcanzable_of_sinCancelar hreach) hW) hno
        rw [hfin] at this
        cases this
      · have := terminado_raices ⟨polinomio, cantidadRaices, workers, .ilimitada⟩ rfl R hR
          (Nat.le_antisymm hcard hge) hW _ hreach hfin
        rw [← this, List.mem_toFinset]
    exact ⟨key ids₁ l₁ h₁ hs₁, fun x => (key ids₁ l₁ h₁ hs₁ x).trans (key ids₂ l₂ h₂ hs₂ x).symm⟩

theorem conjunto_determinista_witness :
    (obtenerRaicesEnterasConcurrente [1, -6, 11, -6] 2 1
        ([0, 0, 0, 0, 0, 0, 0, 0, 0].map Accion.worker) = some [1, 2] ∧
      obtenerRaicesEnterasConcurrente [1, -6, 11, -6] 2 1
        ([0, 1, 0, 0, 2, 0, 0, 0, 0, 0, 0, 0, 0].map Accion.worker) = some [1, 2] ∧
      ([1, 2] : List Int) = [1, 2]) ∧
    (∀ x, x ∈ ({1, 2, 3} : Finset Int) ↔ (x ≠ 0 ∧ evalEsCero [1, -6, 11, -6] x = true)) ∧
    ({1, 2, 3} : Finset Int).card ≤ 3 ∧ 1 ≤ 3 ∧ 1 ≤ 2 ∧
    obtenerRaicesEnterasConcurrente [1, -6, 11, -6] 3 2
      ([0, 0, 0, 0, 0, 0, 0, 0, 0, 1, 1, 1, 0, 0].map Accion.worker) = some [1, 3, 2] ∧
    obtenerRaicesEnterasConcurrente [1, -6, 11, -6] 3 2
      ([1, 1, 1, 0, 0, 0, 0, 0, 0, 0, 0, 0, 1, 1, 1, 1].map Accion.worker) = some [2, 1, 3] ∧
    sinDesborde [1, -6, 11, -6] 3 2
      ([0, 0, 0, 0, 0, 0, 0, 0, 0, 1, 1, 1, 0, 0].map Accion.worker) = true ∧
    sinDesborde [1, -6, 11, -6] 3 2
      ([1, 1, 1, 0, 0, 0, 0, 0, 0, 0, 0, 0, 1, 1, 1, 1].map Accion.worker) = true ∧
    (∀ x, x ∈ [1, 3, 2] ↔ x ∈ ({1, 2, 3} : Finset Int)) ∧
    (∀ x : Int, x ∈ [1, 3, 2] ↔ x ∈ [2, 1, 3]) :=
  ⟨⟨by decide, by decide,
      conjunto_determinista.1 [1, -6, 11, -6] 2 [0, 0, 0, 0, 0, 0, 0, 0, 0]
        [0, 1, 0, 0, 2, 0, 0, 0, 0, 0, 0, 0, 0] [1, 2] [1, 2] (by decide) (by decide)⟩,
    fun x => (cubica_raices x).symm, by decide, by decide, by decide, by decide, by decide,
    by decide, by decide,
    conjunto_determinista.2 [1, -6, 11, -6] 3 2 {1, 2, 3} (fun x => (cubica_raices x).symm)
      (by decide) (by decide) (by decide) [0, 0, 0, 0, 0, 0, 0, 0, 0, 1, 1, 1, 0, 0]
      [1, 1, 1, 0, 0, 0, 0, 0, 0, 0, 0, 0, 1, 1, 1, 1] [1, 3, 2] [2, 1, 3]
      (by decide) (by decide) (by decide) (by decide)⟩

/-! ## Termination under a fair schedule -/

theorem estadoEn_alcanzable (cfg : Config) (σ : Nat → Nat) (t : Nat) :
    AlcanzableSinCancelar cfg (estadoEn cfg σ t) := by
  induction t with
  | zero => exact ⟨[], rfl⟩
  | succ t ih => exact alcanzableSinCancelar_paso ih (σ t)

theorem estadoEn_eq_ejecutar (cfg : Config) (σ : Nat → Nat) (t : Nat) :
    estadoEn cfg σ t = ejecutar cfg (prefijo σ t) := by
  induction t with
  | zero => rfl
  | succ t ih =>
    simp only [estadoEn, ih, prefijo, List.range_succ, List.map_append, List.map_cons,
      List.map_nil, ejecutar, ejecutarDesde_append]
    rfl

/-- An integer sequence that never decreases and gains at least one at each of
infinitely many times is eventually above any bound. -/
theorem seq_crece (f : Nat → Int) (p : Nat → Prop) (hinf : ∀ t, ∃ t', t ≤ t' ∧ p t')
    (hmono : ∀ t, f t ≤ f (t + 1)) (hstep : ∀ t, p t → f t + 1 ≤ f (t + 1)) :
    ∀ N : Nat, ∃ t, ∀ t', t ≤ t' → f 0 + (N : Int) ≤ f t' := by
  have hmono' : ∀ t t', t ≤ t' → f t ≤ f t' := by
    intro t t' h
    induction h with
    | refl => exact le_refl _
    | step _ ih => exact le_trans ih (hmono _)
  intro N
  induction N with
  | zero => exact ⟨0, fun t' _ => by simpa using hmono' 0 t' (Nat.zero_le _)⟩
  | succ N ih =>
    obtain ⟨t, ht⟩ := ih
    obtain ⟨t₁, ht₁, hp⟩ := hinf t
    refine ⟨t₁ + 1, fun t' ht' => ?_⟩
    have h1 := ht t₁ ht₁
    have h2 := hstep t₁ hp
    have h3 := hmono' (t₁ + 1) t' ht'
    push_cast
    omega

/-- A sequence of naturals that never increases from `t₀` on and drops at
each of infinitely many times unless it is zero is eventually zero. -/
theorem seq_decrece (g : Nat → Nat) (p : Nat → Prop) (t₀ : Nat)
    (hinf : ∀ t, ∃ t', t ≤ t' ∧ p t')
    (hmono : ∀ t, t₀ ≤ t → g (t + 1) ≤ g t)
    (hstep : ∀ t, t₀ ≤ t → p t → g t = 0 ∨ g (t + 1) < g t) :
    ∃ t, t₀ ≤ t ∧ ∀ t', t ≤ t' → g t' = 0 := by
  have hmono' : ∀ t t', t₀ ≤ t → t ≤ t' → g t' ≤ g t := by
    intro t t' h0 h
    induction h with
    | refl => exact le_refl _
    | step hle ih => exact le_trans (hmono _ (le_trans h0 hle)) ih
  have key : ∀ d : Nat, ∀ t, t₀ ≤ t → g t ≤ d → ∃ t₁, t ≤ t₁ ∧ g t₁ = 0 := by
    intro d
    induction d with
    | zero => intro t _ hg; exact ⟨t, le_refl _, by omega⟩
    | succ d ih =>
      intro t h0 hg
      obtain ⟨t₁, ht₁, hp⟩ := hinf t
      have h1 := hmono' t t₁ h0 ht₁
      rcases hstep t₁ (le_trans h0 ht₁) hp with hz | hlt
      · exact ⟨t₁, ht₁, hz⟩
      · obtain ⟨t₂, ht₂, hz⟩ := ih (t₁ + 1) (by omega) (by omega)
        exact ⟨t₂, by omega, hz⟩
  obtain ⟨t₁, ht₁, hz⟩ := key (g t₀) t₀ (le_refl _) (le_refl _)
  refine ⟨t₁, ht₁, fun t' ht' => ?_⟩
  have := hmono' t₁ t' ht₁ ht'
  omega

/-- Finitely many properties that each hold from some time on hold
together from some time on. -/
theorem eventualmente_todos {α : Type} [DecidableEq α] (S : Finset α) (P : α → Nat → Prop)
    (h : ∀ a ∈ S, ∃ t, ∀ t', t ≤ t' → P a t') :
    ∃ t, ∀ a ∈ S, ∀ t', t ≤ t' → P a t' := by
  induction S using Finset.induction_on with
  | empty => exact ⟨0, fun a ha => by simp at ha⟩
  | insert hnot ih =>
    rename_i a S
    obtain ⟨t₁, h₁⟩ := ih (fun b hb => h b (Finset.mem_insert_of_mem hb))
    obtain ⟨t₂, h₂⟩ := h a (Finset.mem_insert_self a S)
    refine ⟨max t₁ t₂, fun b hb t' ht' => ?_⟩
    rcases Finset.mem_insert.mp hb with rfl | hb
    · exact h₂ t' (le_trans (le_max_right _ _) ht')
    · exact h₁ b hb t' (le_trans (le_max_left _ _) ht')

theorem pasoWorker_otro (cfg : Config) (s : Estado) {i j : Nat} (h : i ≠ j) :
    (pasoWorker cfg j s).ws[i]? = s.ws[i]? := by
  rcases pasoWorker_trans cfg j s with e | ⟨w, w', r', c', _, _, e⟩
  · rw [e]
  · rw [e]
    exact List.getElem?_set_ne (Ne.symm h)

theorem pasoWorker_propio (cfg : Config) (s : Estado) {i : Nat} {w : Worker}
    (hw : s.ws[i]? = some w) :
    ∃ w', (pasoWorker cfg i s).ws[i]? = some w' ∧
      Trans cfg w s.raices s.cancelado w' (pasoWorker cfg i s).raices
        (pasoWorker cfg i s).cancelado := by
  rcases pasoWorker_cases cfg i s with ⟨hnone, _⟩ | ⟨x, hx, e⟩
  · rw [hnone] at hw; cases hw
  · obtain rfl : x = w := Option.some.inj (hx.symm.trans hw)
    refine ⟨(pasoLocal cfg x s.raices s.cancelado).1, ?_, ?_⟩
    · rw [e]
      exact List.getElem?_set_self (List.getElem?_eq_some_iff.mp hx).1
    · rw [e]
      exact pasoLocal_trans cfg x s.raices s.cancelado

theorem estadoEn_cancelado_mono (cfg : Config) (σ : Nat → Nat) {t t' : Nat} (h : t ≤ t')
    (hc : (estadoEn cfg σ t).cancelado = true) : (estadoEn cfg σ t').cancelado = true := by
  induction h with
  | refl => exact hc
  | step _ ih => exact pasoWorker_cancelado_mono cfg _ _ ih

theorem estadoEn_worker (cfg : Config) (σ : Nat → Nat) (t : Nat) {i : Nat}
    (hi : i < cfg.workers) : ∃ w, (estadoEn cfg σ t).ws[i]? = some w := by
  have hlen := ws_length cfg _ (alcanzable_of_sinCancelar (estadoEn_alcanzable cfg σ t))
  exact ⟨(estadoEn cfg σ t).ws[i], List.getElem?_eq_getElem (by omega)⟩

theorem trans_distFin {cfg : Config} {w w' : Worker} {r r' : List Int} {c c' : Bool}
    (ht : Trans cfg w r c w' r' c') (hc : c = true) :
    distFin w'.pc ≤ distFin w.pc ∧ (distFin w.pc = 0 ∨ distFin w'.pc < distFin w.pc) := by
  cases ht <;> simp_all [distFin]

theorem pcIdx_le (pc : Pc) : pcIdx pc ≤ 6 := by
  cases pc <;> simp [pcIdx]

theorem distFin_eq_zero {pc : Pc} (h : distFin pc = 0) : pc = Pc.fin := by
  cases pc <;> simp_all [distFin]

/-- Once the context is cancelled the distance of a worker to its return
never increases, and it decreases when the worker moves. -/
theorem distEn_paso (cfg : Config) (σ : Nat → Nat) (i t : Nat) (hi : i < cfg.workers)
    (hc : (estadoEn cfg σ t).cancelado = true) :
    distEn cfg σ i (t + 1) ≤ distEn cfg σ i t ∧
    (σ t = i → distEn cfg σ i t = 0 ∨ distEn cfg σ i (t + 1) < distEn cfg σ i t) := by
  obtain ⟨w, hw⟩ := estadoEn_worker cfg σ t hi
  by_cases hσ : σ t = i
  · obtain ⟨w', hw', ht⟩ := pasoWorker_propio cfg (estadoEn cfg σ t) hw
    rw [← hσ] at hw' ht
    have hw'' : (estadoEn cfg σ (t + 1)).ws[i]? = some w' := by
      rw [← hσ]; exact hw'
    have := trans_distFin ht hc
    simp only [distEn, hw, hw'']
    exact ⟨this.1, fun _ => this.2⟩
  · have : (estadoEn cfg σ (t + 1)).ws[i]? = (estadoEn cfg σ t).ws[i]? :=
      pasoWorker_otro cfg _ (fun h => hσ h.symm)
    simp only [distEn, this]
    exact ⟨le_refl _, fun h => absurd h hσ⟩

/-- Once the flag is set, a fair schedule brings every worker to its
return. -/
theorem eventualmente_terminado (cfg : Config) (σ : Nat → Nat) (hfair : Justo cfg.workers σ)
    (t₀ : Nat) (hc : (estadoEn cfg σ t₀).cancelado = true) :
    ∃ t, terminado (estadoEn cfg σ t) = true := by
  have hfin : ∀ i ∈ Finset.range cfg.workers, ∃ t, ∀ t', t ≤ t' → distEn cfg σ i t' = 0 := by
    intro i hi
    rw [Finset.mem_range] at hi
    obtain ⟨t, _, ht⟩ := seq_decrece (distEn cfg σ i) (fun t => σ t = i) t₀ (hfair i hi)
      (fun t h => (distEn_paso cfg σ i t hi (estadoEn_cancelado_mono cfg σ h hc)).1)
      (fun t h => (distEn_paso cfg σ i t hi (estadoEn_cancelado_mono cfg σ h hc)).2)
    exact ⟨t, ht⟩
  obtain ⟨t, ht⟩ := eventualmente_todos _ _ hfin
  refine ⟨t, ?_⟩
  simp only [terminado, List.all_eq_true, beq_iff_eq]
  intro w hw
  obtain ⟨i, hi⟩ := List.mem_iff_getElem?.mp hw
  have hlen := ws_length cfg _ (alcanzable_of_sinCancelar (estadoEn_alcanzable cfg σ t))
  have hlt : i < cfg.workers := by
    rw [← hlen]; exact (List.getElem?_eq_some_iff.mp hi).1
  have := ht i (Finset.mem_range.mpr hlt) t (le_refl _)
  simp only [distEn, hi] at this
  exact distFin_eq_zero this

theorem justo_turnos (workers : Nat) (hW : 1 ≤ workers) :
    Justo workers (fun t => t % workers) := by
  intro id hid t
  refine ⟨workers * t + id, ?_, ?_⟩
  · have : t ≤ workers * t := Nat.le_mul_of_pos_left t (by omega)
    omega
  · simp only
    rw [Nat.mul_add_mod]
    exact Nat.mod_eq_of_lt hid

theorem prefijo_succ (σ : Nat → Nat) (t : Nat) :
    prefijo σ (t + 1) = prefijo σ t ++ [Accion.worker (σ t)] := by
  simp [prefijo, List.range_succ]

/-- A step that does not return moves the worker forward within its
iteration, or on to the next one. -/
theorem trans_medida {cfg : Config} {w w' : Worker} {r r' : List Int} {c c' : Bool}
    (ht : Trans cfg w r c w' r' c') (hfin : w'.pc ≠ Pc.fin) :
    pcIdx w.pc + 1 ≤ (if w.pc = Pc.avanzar then 6 else 0) + pcIdx w'.pc := by
  cases ht <;> simp only [pcIdx] at hfin ⊢ <;> first
    | exact absurd rfl hfin
    | simp

/-- While the context is not cancelled the progress measure of a worker
never decreases, and it increases when the worker moves. -/
theorem medidaEn_paso (cfg : Config) (σ : Nat → Nat) (i t : Nat) (hi : i < cfg.workers)
    (hnever : (estadoEn cfg σ (t + 1)).cancelado = false) :
    medidaEn cfg σ i t ≤ medidaEn cfg σ i (t + 1) ∧
    (σ t = i → medidaEn cfg σ i t + 1 ≤ medidaEn cfg σ i (t + 1)) := by
  obtain ⟨w, hw⟩ := estadoEn_worker cfg σ t hi
  by_cases hσ : σ t = i
  · obtain ⟨w', hw', ht⟩ := pasoWorker_propio cfg (estadoEn cfg σ t) hw
    rw [← hσ] at hw' ht
    have hw'' : (estadoEn cfg σ (t + 1)).ws[i]? = some w' := by
      rw [← hσ]; exact hw'
    have hnofin : w'.pc ≠ Pc.fin := by
      intro hfin
      have := fin_cancelado cfg _
        (alcanzable_of_sinCancelar (estadoEn_alcanzable cfg σ (t + 1))) w'
        (List.getElem?_mem hw'') hfin
      rw [hnever] at this
      cases this
    have hm := trans_medida ht hnofin
    have hit : iteraciones cfg i (prefijo σ (t + 1))
        = iteraciones cfg i (prefijo σ t) + (if w.pc = Pc.avanzar then 1 else 0) := by
      rw [prefijo_succ, hσ]
      exact iteraciones_propio cfg i _ w (by rw [← estadoEn_eq_ejecutar]; exact hw)
    simp only [medidaEn, hw, hw'', hit]
    split_ifs at hm ⊢ <;> exact ⟨by omega, fun _ => by omega⟩
  · have hws : (estadoEn cfg σ (t + 1)).ws[i]? = (estadoEn cfg σ t).ws[i]? :=
      pasoWorker_otro cfg _ (fun h => hσ h.symm)
    have hit : iteraciones cfg i (prefijo σ (t + 1)) = iteraciones cfg i (prefijo σ t) := by
      rw [prefijo_succ]
      exact iteraciones_otro cfg i _ _ (by simpa using hσ)
    simp only [medidaEn, hws, hit]
    exact ⟨le_refl _, fun h => absurd h hσ⟩

theorem trans_sub {cfg : Config} {w w' : Worker} {r r' : List Int} {c c' : Bool}
    (ht : Trans cfg w r c w' r' c') : (∀ y, y ∈ r → y ∈ r') ∧ r.length ≤ r'.length := by
  cases ht <;> refine ⟨fun y hy => ?_, ?_⟩ <;> first
    | exact hy
    | exact List.mem_append_left _ hy
    | simp

theorem resuelto_mono {cfg : Config} {r r' : List Int} {x : Int}
    (hsub : (∀ y, y ∈ r → y ∈ r') ∧ r.length ≤ r'.length) (h : Resuelto cfg r x) :
    Resuelto cfg r' x := by
  intro he
  rcases h he with h | h
  · exact Or.inl (hsub.1 x h)
  · exact Or.inr (le_trans h hsub.2)

theorem hecho_mono {cfg : Config} {w : Worker} {r r' : List Int}
    (hsub : (∀ y, y ∈ r → y ∈ r') ∧ r.length ≤ r'.length) (h : Hecho cfg w r) :
    Hecho cfg w r' := by
  rcases w with ⟨pc, n⟩
  cases pc <;> simp only [Hecho] at h ⊢ <;> exact resuelto_mono hsub h

/-- A step keeps track of the candidate `+n` of the current iteration, and
`n += int64(workers)` is executed only once `+n` has been dealt with. -/
theorem trans_hecho {cfg : Config} {w w' : Worker} {r r' : List Int} {c c' : Bool}
    (ht : Trans cfg w r c w' r' c') (h : Hecho cfg w r) :
    Hecho cfg w' r' ∧ (w.pc = Pc.avanzar → Resuelto cfg r' w.n) := by
  cases ht <;> simp only [Hecho, Resuelto] at h ⊢ <;> first
    | (simp_all; done)
    | (refine ⟨fun he => ?_, by simp⟩
       rcases h he with h | h
       · exact Or.inl (List.mem_append_left _ h)
       · exact Or.inr (by simp; omega))

/-- The candidate `+n` of every completed iteration of every worker has
been dealt with. -/
theorem procesado_inv (cfg : Config) (acciones : List Accion) :
    ∀ (i : Nat) (w : Worker), (ejecutar cfg acciones).ws[i]? = some w →
      Hecho cfg w (ejecutar cfg acciones).raices ∧
      ∀ κ : Nat, κ < iteraciones cfg i acciones →
        Resuelto cfg (ejecutar cfg acciones).raices
          (cfg.cursor.norm ((i : Int) + 1 + (κ : Int) * (cfg.workers : Int))) := by
  induction acciones using List.reverseRecOn with
  | nil =>
    intro i w hw
    simp only [ejecutar, ejecutarDesde, List.foldl_nil, inicial, List.getElem?_map,
      Option.map_eq_some'] at hw
    obtain ⟨a, _, rfl⟩ := hw
    exact ⟨trivial, fun κ hκ => by simp [iteraciones, avancesDesde] at hκ⟩
  | append_singleton acciones a ih =>
    intro i w hw
    rw [ejecutar_snoc] at hw ⊢
    cases a with
    | cancelarExterno =>
      rw [iteraciones_otro _ _ _ _ (by simp)]
      exact ih i w hw
    | worker j =>
      simp only [paso] at hw ⊢
      rcases pasoWorker_cases cfg j (ejecutar cfg acciones) with ⟨hnone, e⟩ | ⟨w0, hw0, e⟩
      · rw [e] at hw ⊢
        have hij : i ≠ j := by
          rintro rfl
          rw [hnone] at hw
          cases hw
        rw [iteraciones_otro _ _ _ _ (by simpa using fun h => hij h.symm)]
        exact ih i w hw
      · have ht := pasoLocal_trans cfg w0 (ejecutar cfg acciones).raices
          (ejecutar cfg acciones).cancelado
        have hsub := trans_sub ht
        rw [e] at hw ⊢
        simp only
        rcases getElem?_set_cases _ _ _ _ _ hw with ⟨rfl, rfl⟩ | ⟨hne, hw⟩
        · obtain ⟨h1, h2⟩ := ih i w0 hw0
          obtain ⟨h3, h4⟩ := trans_hecho ht h1
          refine ⟨h3, fun κ hκ => ?_⟩
          rw [iteraciones_propio cfg i acciones w0 hw0] at hκ
          by_cases hlt : κ < iteraciones cfg i acciones
          · exact resuelto_mono hsub (h2 κ hlt)
          · have hpc : w0.pc = Pc.avanzar := by
              by_contra hpc
              rw [if_neg hpc] at hκ
              omega
            rw [if_pos hpc] at hκ
            have hκ' : κ = iteraciones cfg i acciones := by omega
            rw [hκ', ← cursor_inv cfg acciones i w0 hw0]
            exact h4 hpc
        · obtain ⟨h1, h2⟩ := ih i w hw
          rw [iteraciones_otro _ _ _ _ (by simpa using fun h => hne h.symm)]
          exact ⟨hecho_mono hsub h1, fun κ hκ => resuelto_mono hsub (h2 κ hκ)⟩

/-- Every `int64` is the cursor of some worker at some iteration. -/
theorem candidato_exists {workers : Nat} (hW : 1 ≤ workers) {v : Int}
    (h1 : -2 ^ 63 ≤ v) (h2 : v ≤ 2 ^ 63 - 1) :
    ∃ (i κ : Nat), i < workers ∧
      wrapInt64 ((i : Int) + 1 + (κ : Int) * (workers : Int)) = v := by
  have hnn : (0 : Int) ≤ (v - 1) % 2 ^ 64 := Int.emod_nonneg _ (by norm_num)
  obtain ⟨m, hm⟩ := Int.eq_ofNat_of_zero_le hnn
  refine ⟨m % workers, m / workers, Nat.mod_lt _ (by omega), ?_⟩
  have hdiv : ((m % workers : Nat) : Int) + ((m / workers : Nat) : Int) * (workers : Int)
      = (m : Int) := by
    have := Nat.mod_add_div m workers
    rw [Nat.mul_comm] at this
    exact_mod_cast this
  have e : ((m % workers : Nat) : Int) + 1 + ((m / workers : Nat) : Int) * (workers : Int)
      = (m : Int) + 1 := by
    linarith
  rw [e]
  unfold wrapInt64
  omega

/-- With at least `cantidadRaices ≥ 1` distinct integer roots in the `int64`
range and a fair schedule, the cancellation flag is eventually set. -/
theorem eventualmente_cancelado (cfg : Config) (har : cfg.cursor = .int64) (R : Finset Int)
    (hroots : ∀ r ∈ R, (-2 ^ 63 ≤ r ∧ r ≤ 2 ^ 63 - 1) ∧ evalEsCero cfg.polinomio r = true)
    (hcard : cfg.cantidadRaices ≤ R.card) (hc : 1 ≤ cfg.cantidadRaices)
    (hW : 1 ≤ cfg.workers) (σ : Nat → Nat) (hfair : Justo cfg.workers σ) :
    ∃ t, (estadoEn cfg σ t).cancelado = true := by
  by_contra hne
  have hnever : ∀ t, (estadoEn cfg σ t).cancelado = false := by
    intro t
    cases h : (estadoEn cfg σ t).cancelado with
    | false => rfl
    | true => exact absurd ⟨t, h⟩ hne
  have hroom : ∀ t, (estadoEn cfg σ t).raices.length < cfg.cantidadRaices := by
    intro t
    rcases (cancelado_sinCancelar cfg _ (estadoEn_alcanzable cfg σ t)).2 (hnever t) with h | h
    · exact h
    · omega
  -- every root of `R` is eventually in `raices`
  have hin : ∀ r ∈ R, ∃ t, ∀ t', t ≤ t' → r ∈ (estadoEn cfg σ t').raices := by
    intro r hr
    obtain ⟨⟨hr1, hr2⟩, hroot⟩ := hroots r hr
    obtain ⟨i, κ, hi, hcand⟩ := candidato_exists hW hr1 hr2
    obtain ⟨t, ht⟩ := seq_crece (fun t => (medidaEn cfg σ i t : Int)) (fun t => σ t = i)
      (hfair i hi)
      (fun t => by
        show (medidaEn cfg σ i t : Int) ≤ (medidaEn cfg σ i (t + 1) : Int)
        exact_mod_cast (medidaEn_paso cfg σ i t hi (hnever _)).1)
      (fun t h => by
        show (medidaEn cfg σ i t : Int) + 1 ≤ (medidaEn cfg σ i (t + 1) : Int)
        exact_mod_cast (medidaEn_paso cfg σ i t hi (hnever _)).2 h)
      (6 * (κ + 2))
    refine ⟨t, fun t' ht' => ?_⟩
    obtain ⟨w, hw⟩ := estadoEn_worker cfg σ t' hi
    have hm := ht t' ht'
    have hidx := pcIdx_le w.pc
    simp only [medidaEn, hw] at hm
    have hm0 : (0 : Int) ≤ ((match (estadoEn cfg σ 0).ws[i]? with
      | some w => 6 * iteraciones cfg i (prefijo σ 0) + pcIdx w.pc
      | none => 0 : Nat) : Int) := Int.ofNat_nonneg _
    have hlt : κ < iteraciones cfg i (prefijo σ t') := by
      push_cast at hm
      omega
    rw [estadoEn_eq_ejecutar] at hw ⊢
    have hres := (procesado_inv cfg (prefijo σ t') i w hw).2 κ hlt
    rw [har] at hres
    simp only [Aritmetica.norm, hcand] at hres
    rcases hres hroot with h | h
    · exact h
    · have := hroom t'
      rw [estadoEn_eq_ejecutar] at this
      omega
  obtain ⟨t, ht⟩ := eventualmente_todos R _ hin
  have hsub : R ⊆ (estadoEn cfg σ t).raices.toFinset := by
    intro r hr
    rw [List.mem_toFinset]
    exact ht r hr t (le_refl _)
  have h1 := Finset.card_le_card hsub
  have h2 := List.toFinset_card_le (estadoEn cfg σ t).raices
  have h3 := hroom t
  omega

/-- In the program every cursor and every element of `raices` is an
`int64`. -/
theorem rango_inv (cfg : Config) (har : cfg.cursor = .int64) (s : Estado)
    (h : Alcanzable cfg s) :
    (∀ w ∈ s.ws, -2 ^ 63 ≤ w.n ∧ w.n ≤ 2 ^ 63 - 1) ∧
    (∀ r ∈ s.raices, -2 ^ 63 ≤ r ∧ r ≤ 2 ^ 63 - 1) := by
  revert s
  apply alcanzable_inv
  · refine ⟨?_, by simp [inicial]⟩
    intro w hw
    simp only [inicial, List.mem_map] at hw
    obtain ⟨id, _, rfl⟩ := hw
    rw [har]
    exact wrapInt64_range _
  · intro id s hs
    rcases pasoWorker_trans cfg id s with h | ⟨w, w', r', c', hw, ht, h⟩
    · rw [h]; exact hs
    · rw [h]
      obtain ⟨hws, hr⟩ := hs
      have hwn := hws w (List.getElem?_mem hw)
      have key : (-2 ^ 63 ≤ w'.n ∧ w'.n ≤ 2 ^ 63 - 1) ∧
          (∀ x ∈ r', -2 ^ 63 ≤ x ∧ x ≤ 2 ^ 63 - 1) := by
        cases ht <;> simp only [har, negarDe, cursorSiguienteDe, cursorSiguiente64] <;>
          refine ⟨?_, ?_⟩ <;> first
          | exact hwn
          | exact wrapInt64_range _
          | exact hr
          | (intro x hx
             rcases List.mem_append.mp hx with hx | hx
             · exact hr x hx
             · rw [List.mem_singleton.mp hx]
               first
               | exact hwn
               | exact wrapInt64_range _)
      refine ⟨?_, key.2⟩
      intro x hx
      rcases List.mem_or_eq_of_mem_set hx with hx | rfl
      · exact hws x hx
      · exact key.1
  · intro s hs; exact hs

/-- When no `int64` is a root of the polynomial and the caller never
cancels, the program collects nothing and, for a positive target and at
least one worker, no worker ever returns. -/
theorem sin_raices_en_rango (cfg : Config) (har : cfg.cursor = .int64)
    (hno : ∀ x, -2 ^ 63 ≤ x → x ≤ 2 ^ 63 - 1 → evalEsCero cfg.polinomio x = false)
    (hc : 1 ≤ cfg.cantidadRaices) (hW : 1 ≤ cfg.workers) (s : Estado)
    (h : AlcanzableSinCancelar cfg s) :
    s.raices = [] ∧ s.cancelado = false ∧ terminado s = false := by
  have hreach := alcanzable_of_sinCancelar h
  have hroot := (raiz_inv cfg s hreach).1
  have hran := (rango_inv cfg har s hreach).2
  have hnil : s.raices = [] := by
    cases hr : s.raices with
    | nil => rfl
    | cons x rest =>
      have hx : x ∈ s.raices := by rw [hr]; exact List.mem_cons_self _ _
      have := hroot x hx
      rw [hno x (hran x hx).1 (hran x hx).2] at this
      cases this
  have hcan : s.cancelado = false := by
    cases hcan : s.cancelado with
    | false => rfl
    | true =>
      have := (cancelado_sinCancelar cfg s h).1 hcan
      rw [hnil] at this
      simp at this
      omega
  refine ⟨hnil, hcan, terminado_eq_false (ws_ne_nil hreach hW) ?_⟩
  intro w hw hfin
  have := fin_cancelado cfg s hreach w hw hfin
  rw [hcan] at this
  cases this

theorem lineal_raices (x : Int) : evalEsCero [1, -2 ^ 63] x = true ↔ x = 2 ^ 63 := by
  rw [evalEsCero_iff_sumaExacta]
  simp only [sumaExacta, List.length_cons, List.length_nil, Finset.sum_range_succ,
    Finset.sum_range_zero]
  simp only [List.getD_cons_zero, List.getD_cons_succ]
  constructor
  · intro hx
    simp at hx
    linarith
  · rintro rfl
    norm_num

/-- C5, as stated, fails: `x - 2^63` (coefficients `[1, -2^63]`, degree 1)
has the integer root `2^63`, one root for the target 1, yet with four
workers no run ever completes, not even the fair round-robin one: the
candidates are `int64` values and `2^63` is not one of them. -/
theorem raiz_fuera_de_int64_no_termina :
    1 ≤ obtenerCantidadMaximaRaices [1, -2 ^ 63] ∧
    evalEsCero [1, -2 ^ 63] (2 ^ 63) = true ∧
    Justo 4 (fun t => t % 4) ∧
    (∀ ids : List Nat,
      obtenerRaicesEnterasConcurrente [1, -2 ^ 63] 1 4 (ids.map Accion.worker) = none) ∧
    ¬ (∀ σ : Nat → Nat, Justo 4 σ →
      ∃ (t : Nat) (l : List Int),
        obtenerRaicesEnterasConcurrente [1, -2 ^ 63] 1 4 (prefijo σ t) = some l ∧
        l.length = 1) := by
  have hnone : ∀ ids : List Nat,
      obtenerRaicesEnterasConcurrente [1, -2 ^ 63] 1 4 (ids.map Accion.worker) = none := by
    intro ids
    have hreach : AlcanzableSinCancelar ⟨[1, -2 ^ 63], 1, 4, .int64⟩
        (ejecutar ⟨[1, -2 ^ 63], 1, 4, .int64⟩ (ids.map Accion.worker)) := ⟨ids, rfl⟩
    have hno : ∀ x : Int, -2 ^ 63 ≤ x → x ≤ 2 ^ 63 - 1 →
        evalEsCero [1, -2 ^ 63] x = false := by
      intro x _ h2
      rw [← Bool.not_eq_true, lineal_raices]
      omega
    exact obtener_eq_none (sin_raices_en_rango ⟨[1, -2 ^ 63], 1, 4, .int64⟩ rfl hno
      (le_refl 1) (by decide) _ hreach).2.2
  refine ⟨by decide, (lineal_raices _).mpr rfl, justo_turnos 4 (by decide), hnone,
    fun h => ?_⟩
  obtain ⟨t, l, ht, _⟩ := h _ (justo_turnos 4 (by decide))
  have := hnone ((List.range t).map fun k => k % 4)
  simp only [prefijo] at ht
  simp only [List.map_map] at this
  rw [show (Accion.worker ∘ fun k => k % 4) = fun k => Accion.worker (k % 4) from rfl] at this
  rw [this] at ht
  cases ht

/-- C5, amended: for every polynomial of degree at least 1 with at least
`cantidadRaices ≥ 1` distinct integer roots in the `int64` range
`[-2^63, 2^63 - 1]` (the elements of `R`) and at least one worker, every run
in which each worker keeps taking steps and the caller never cancels
reaches, after finitely many steps, a state where all workers have
returned, and the returned list has exactly `cantidadRaices` elements. -/
theorem busqueda_termina (polinomio : List Int) (cantidadRaices workers : Nat)
    (R : Finset Int) (_hd : 1 ≤ obtenerCantidadMaximaRaices polinomio)
    (hroots : ∀ r ∈ R, (-2 ^ 63 ≤ r ∧ r ≤ 2 ^ 63 - 1) ∧ evalEsCero polinomio r = true)
    (hcard : cantidadRaices ≤ R.card) (hc : 1 ≤ cantidadRaices)
    (hW : 1 ≤ workers) (σ : Nat → Nat) (hfair : Justo workers σ) :
    ∃ (t : Nat) (l : List Int),
      obtenerRaicesEnterasConcurrente polinomio cantidadRaices workers (prefijo σ t) = some l ∧
      l.length = cantidadRaices := by
  obtain ⟨t₀, ht₀⟩ := eventualmente_cancelado ⟨polinomio, cantidadRaices, workers, .int64⟩ rfl
    R hroots hcard hc hW σ hfair
  obtain ⟨t, ht⟩ := eventualmente_terminado ⟨polinomio, cantidadRaices, workers, .int64⟩ σ
    hfair t₀ ht₀
  have hlen := terminado_length ⟨polinomio, cantidadRaices, workers, .int64⟩ hW _
    (estadoEn_alcanzable _ σ t) ht
  rw [estadoEn_eq_ejecutar] at ht hlen
  refine ⟨t, _, ?_, hlen⟩
  unfold obtenerRaicesEnterasConcurrente
  simp only [ht, if_true]

theorem busqueda_termina_witness :
    1 ≤ obtenerCantidadMaximaRaices [1, -1, 0] ∧
    (∀ r ∈ ({0, 1} : Finset Int),
      (-2 ^ 63 ≤ r ∧ r ≤ 2 ^ 63 - 1) ∧ evalEsCero [1, -1, 0] r = true) ∧
    2 ≤ ({0, 1} : Finset Int).card ∧ 1 ≤ 2 ∧ 1 ≤ 4 ∧
    Justo 4 (fun t => t % 4) ∧
    ∃ (t : Nat) (l : List Int),
      obtenerRaicesEnterasConcurrente [1, -1, 0] 2 4 (prefijo (fun t => t % 4) t) = some l ∧
      l.length = 2 :=
  ⟨by decide, by decide, by decide, by decide, by decide, justo_turnos 4 (by decide),
    busqueda_termina [1, -1, 0] 2 4 {0, 1} (by decide) (by decide) (by decide)
      (by decide) (by decide) _ (justo_turnos 4 (by decide))⟩
/-! ## Coefficient reader: rejected inputs -/

theorem parseUintLoop_ok_digits : ∀ (s : List Char) (n v : Nat),
    parseUintLoop s n = .ok v → s.all Char.isDigit = true := by
  intro s
  induction s with
  | nil => intro n v _; rfl
  | cons c cs ih =>
    intro n v h
    unfold parseUintLoop at h
    by_cases hc : '0' ≤ c ∧ c ≤ '9'
    · simp only [hc, and_self, if_true] at h
      split at h
      · cases h
      · split at h
        · cases h
        · have := ih _ _ h
          rw [List.all_cons, this, Bool.and_true]
          obtain ⟨h0, h9⟩ := hc
          simp only [Char.isDigit, Bool.and_eq_true, decide_eq_true_eq]
          exact ⟨h0, h9⟩
    · simp only [hc, if_false] at h
      cases h

theorem parseUint_ok_digits {s : List Char} {v : Nat} (h : parseUint s = .ok v) :
    s ≠ [] ∧ s.all Char.isDigit = true := by
  unfold parseUint at h
  by_cases hs : s = []
  · simp [hs] at h
  · simp only [hs, if_false] at h
    exact ⟨hs, parseUintLoop_ok_digits _ _ _ h⟩

theorem esEntero_eq (t : List Char) :
    esEntero t = (!(quitarSigno t).2.isEmpty && (quitarSigno t).2.all Char.isDigit) := by
  unfold esEntero quitarSigno
  split
  · rfl
  · rfl
  · rfl

theorem parseInt_ok_esEntero {t : List Char} {v : Int} (h : parseInt t = .ok v) :
    esEntero t = true := by
  unfold parseInt at h
  by_cases ht : t = []
  · simp [ht] at h
  · simp only [ht, if_false] at h
    rw [esEntero_eq]
    split at h
    · cases h
    · cases h
    · rename_i un hun
      obtain ⟨h1, h2⟩ := parseUint_ok_digits hun
      rw [h2, Bool.and_true]
      cases hr : (quitarSigno t).2 with
      | nil => exact absurd hr h1
      | cons _ _ => rfl

theorem parseCoeffsLoop_error : ∀ (fs : List (List Char)) (ints : List Int),
    (∃ f ∈ fs, trimSpace f ≠ [] ∧ esEntero (trimSpace f) = false) →
    ∃ e, parseCoeffsLoop fs ints = .error e := by
  intro fs
  induction fs with
  | nil => rintro ints ⟨f, hf, _⟩; cases hf
  | cons g gs ih =>
    rintro ints ⟨f, hf, hne, hno⟩
    unfold parseCoeffsLoop
    by_cases hg : trimSpace g = []
    · simp only [hg, if_true]
      rcases List.mem_cons.mp hf with rfl | hf
      · exact absurd hg hne
      · exact ih ints ⟨f, hf, hne, hno⟩
    · simp only [hg, if_false]
      cases hp : parseInt (trimSpace g) with
      | error e => exact ⟨_, rfl⟩
      | ok v =>
        simp only
        rcases List.mem_cons.mp hf with rfl | hf
        · rw [parseInt_ok_esEntero hp] at hno
          cases hno
        · exact ih _ ⟨f, hf, hne, hno⟩

theorem parseCoeffsLoop_ok_length : ∀ (fs : List (List Char)) (ints l : List Int),
    parseCoeffsLoop fs ints = .ok l →
    l.length = ints.length + ((fs.map trimSpace).filter fun t => decide (t ≠ [])).length := by
  intro fs
  induction fs with
  | nil =>
    intro ints l h
    simp only [parseCoeffsLoop] at h
    cases h
    simp
  | cons g gs ih =>
    intro ints l h
    unfold parseCoeffsLoop at h
    by_cases hg : trimSpace g = []
    · simp only [hg, if_true] at h
      rw [ih _ _ h]
      simp [hg]
    · simp only [hg, if_false] at h
      cases hp : parseInt (trimSpace g) with
      | error e => rw [hp] at h; cases h
      | ok v =>
        rw [hp] at h
        simp only at h
        rw [ih _ _ h]
        simp [hg]
        omega

theorem parseCoeffs_ok_iff {csv : String} {l : List Int} (h : parseCoeffs csv = .ok l) :
    ∃ ints, parseCoeffsLoop (splitComa csv.toList) [] = .ok ints ∧ 2 ≤ ints.length ∧
      l = toBigSlice ints := by
  unfold parseCoeffs at h
  split at h
  · cases h
  · rename_i ints hints
    by_cases hlen : ints.length < 2
    · simp [hlen] at h
    · simp only [hlen, if_false] at h
      cases h
      exact ⟨ints, hints, by omega, rfl⟩

theorem parseCoeffs_error_or_ok (csv : String) :
    (∃ e, parseCoeffs csv = .error e) ∨ ∃ l, parseCoeffs csv = .ok l := by
  cases h : parseCoeffs csv with
  | error e => exact Or.inl ⟨e, rfl⟩
  | ok l => exact Or.inr ⟨l, rfl⟩

/-- C10, as stated, fails: the middle token of `"1,,2"` is empty, hence not
an integer, yet `parseCoeffs` skips it and returns `[1, 2]`. -/
theorem campo_vacio_aceptado :
    (∃ t ∈ tokens "1,,2", esEntero t = false) ∧ parseCoeffs "1,,2" = .ok [1, 2] :=
  ⟨⟨[], by decide, by decide⟩, by rfl⟩

/-- C10, amended: `parseCoeffs` returns an error for every input with a
token that is not empty after trimming and is not an integer literal, and
for every input with fewer than 2 non-empty tokens; `"abc,2,3"` and `"5"`
are rejected, and every list it returns has length at least 2. -/
theorem parseCoeffs_rechaza :
    (∀ csv : String, (∃ t ∈ tokens csv, t ≠ [] ∧ esEntero t = false) →
      ∃ e, parseCoeffs csv = .error e) ∧
    (∀ csv : String, ((tokens csv).filter fun t => decide (t ≠ [])).length < 2 →
      ∃ e, parseCoeffs csv = .error e) ∧
    (∃ e, parseCoeffs "abc,2,3" = .error e) ∧
    (∃ e, parseCoeffs "5" = .error e) ∧
    (∀ (csv : String) (l : List Int), parseCoeffs csv = .ok l → 2 ≤ l.length) := by
  refine ⟨?_, ?_, ⟨_, rfl⟩, ⟨_, rfl⟩, ?_⟩
  · rintro csv ⟨t, ht, hne, hno⟩
    simp only [tokens, List.mem_map] at ht
    obtain ⟨f, hf, rfl⟩ := ht
    obtain ⟨e, he⟩ := parseCoeffsLoop_error (splitComa csv.toList) [] ⟨f, hf, hne, hno⟩
    exact ⟨e, by unfold parseCoeffs; rw [he]⟩
  · intro csv hlt
    rcases parseCoeffs_error_or_ok csv with h | ⟨l, h⟩
    · exact h
    · obtain ⟨ints, hints, hlen, _⟩ := parseCoeffs_ok_iff h
      have := parseCoeffsLoop_ok_length _ _ _ hints
      simp only [tokens] at hlt
      simp only [List.length_nil, Nat.zero_add] at this
      omega
  · intro csv l h
    obtain ⟨ints, _, hlen, rfl⟩ := parseCoeffs_ok_iff h
    simpa [toBigSlice] using hlen

theorem parseCoeffs_rechaza_witness :
    (∃ t ∈ tokens "1, x5 ,3", t ≠ [] ∧ esEntero t = false) ∧
    (∃ e, parseCoeffs "1, x5 ,3" = .error e) ∧
    ((tokens " 7 ,, ").filter fun t => decide (t ≠ [])).length < 2 ∧
    (∃ e, parseCoeffs " 7 ,, " = .error e) ∧
    parseCoeffs "1,-6,11,-6" = .ok [1, -6, 11, -6] ∧ 2 ≤ [1, -6, 11, -6].length :=
  ⟨⟨"x5".toList, by decide, by decide, by decide⟩,
    parseCoeffs_rechaza.1 "1, x5 ,3" ⟨"x5".toList, by decide, by decide, by decide⟩,
    by decide, parseCoeffs_rechaza.2.1 " 7 ,, " (by decide),
    by rfl, parseCoeffs_rechaza.2.2.2.2 "1,-6,11,-6" [1, -6, 11, -6] (by rfl)⟩

/-! ## The cursor as an `int64` -/

theorem cursorEn64_eq (w id k : Nat) :
    cursorEn64 w id k = wrapInt64 ((id : Int) + 1 + (k : Int) * (w : Int)) := by
  induction k with
  | zero => simp [cursorEn64, cursorInicial64]
  | succ k ih =>
    simp only [cursorEn64, cursorSiguiente64, ih, wrapInt64_add]
    congr 1
    push_cast
    ring

/-- C13, as stated, fails: with 4 workers, the `int64` cursor of worker 3
at iteration `2^61 - 1` is not `3 + 1 + (2^61 - 1) * 4 = 2^63` but
`-2^63`, which is not positive and lies below the cursor of the iteration
before. -/
theorem cursor_desborda :
    cursorEn64 4 3 (2 ^ 61 - 1) = -2 ^ 63 ∧
    cursorEn64 4 3 (2 ^ 61 - 1) ≠ ((3 : Nat) : Int) + 1 + ((2 ^ 61 - 1 : Nat) : Int) * ((4 : Nat) : Int) ∧
    ¬ (0 < cursorEn64 4 3 (2 ^ 61 - 1)) ∧
    ¬ (cursorEn64 4 3 (2 ^ 61 - 2) < cursorEn64 4 3 (2 ^ 61 - 1)) := by
  rw [cursorEn64_eq, cursorEn64_eq]
  norm_num [wrapInt64]

/-- C13, amended: for `w ≥ 1`, `id < w` and every iteration `k` with
`id + 1 + k * w ≤ 2^63 - 1`, the `int64` cursor of worker `id` at iteration
`k` is `id + 1 + k * w` (the value of the unbounded cursor), it is positive,
and it is larger than at every earlier iteration. -/
theorem cursor_sin_desborde (w id k : Nat) (hw : 1 ≤ w) (_hid : id < w)
    (hk : (id : Int) + 1 + (k : Int) * (w : Int) ≤ 2 ^ 63 - 1) :
    cursorEn64 w id k = (id : Int) + 1 + (k : Int) * (w : Int) ∧
    cursorEn64 w id k = cursorEn w id k ∧
    0 < cursorEn64 w id k ∧
    ∀ j, j < k → cursorEn64 w id j < cursorEn64 w id k := by
  have hpos : ∀ j : Nat, (0 : Int) ≤ (j : Int) * (w : Int) := fun j => by positivity
  have hmono : ∀ j : Nat, j < k → (j : Int) * (w : Int) < (k : Int) * (w : Int) := by
    intro j hj
    have : j * w < k * w := Nat.mul_lt_mul_of_pos_right hj (by omega)
    exact_mod_cast this
  have heq : ∀ j : Nat, j ≤ k →
      cursorEn64 w id j = (id : Int) + 1 + (j : Int) * (w : Int) := by
    intro j hj
    rw [cursorEn64_eq]
    apply wrapInt64_of_range
    · have := hpos j
      omega
    · rcases Nat.eq_or_lt_of_le hj with rfl | hlt
      · exact hk
      · have := hmono j hlt
        omega
  refine ⟨heq k (le_refl _), ?_, ?_, ?_⟩
  · rw [heq k (le_refl _), cursorEn_eq]
  · rw [heq k (le_refl _)]
    have := hpos k
    omega
  · intro j hj
    rw [heq j (le_of_lt hj), heq k (le_refl _)]
    have := hmono j hj
    omega

theorem cursor_sin_desborde_witness :
    1 ≤ 4 ∧ 3 < 4 ∧
    ((3 : Nat) : Int) + 1 + ((2 ^ 61 - 2 : Nat) : Int) * ((4 : Nat) : Int) ≤ 2 ^ 63 - 1 ∧
    cursorEn64 4 3 (2 ^ 61 - 2)
      = ((3 : Nat) : Int) + 1 + ((2 ^ 61 - 2 : Nat) : Int) * ((4 : Nat) : Int) ∧
    cursorEn64 4 3 (2 ^ 61 - 2) = cursorEn 4 3 (2 ^ 61 - 2) ∧
    0 < cursorEn64 4 3 (2 ^ 61 - 2) ∧
    ∀ j, j < 2 ^ 61 - 2 → cursorEn64 4 3 j < cursorEn64 4 3 (2 ^ 61 - 2) :=
  ⟨by decide, by decide, by norm_num,
    cursor_sin_desborde 4 3 (2 ^ 61 - 2) (by decide) (by decide) (by norm_num)⟩

/-! ## Coefficient reader: exact behaviour -/

theorem isDigit_iff (c : Char) : ('0' ≤ c ∧ c ≤ '9') ↔ c.isDigit = true := by
  simp only [Char.isDigit, Bool.and_eq_true, decide_eq_true_eq]
  exact ⟨fun h => ⟨h.1, h.2⟩, fun h => ⟨h.1, h.2⟩⟩

theorem foldl_decimal_ge (s : List Char) : ∀ n : Nat,
    n ≤ s.foldl (fun acc c => acc * 10 + (c.toNat - '0'.toNat)) n := by
  induction s with
  | nil => intro n; exact le_refl _
  | cons c cs ih =>
    intro n
    simp only [List.foldl_cons]
    have := ih (n * 10 + (c.toNat - '0'.toNat))
    omega

theorem parseUintLoop_iff (s : List Char) : ∀ (n v : Nat), n ≤ 2 ^ 64 - 1 →
    (parseUintLoop s n = .ok v ↔
      (s.all Char.isDigit = true ∧
        s.foldl (fun acc c => acc * 10 + (c.toNat - '0'.toNat)) n = v ∧ v ≤ 2 ^ 64 - 1)) := by
  induction s with
  | nil =>
    intro n v hn
    simp only [parseUintLoop, Except.ok.injEq, List.all_nil, List.foldl_nil, true_and]
    constructor
    · rintro rfl; exact ⟨rfl, hn⟩
    · rintro ⟨h, _⟩; exact h
  | cons c cs ih =>
    intro n v hn
    unfold parseUintLoop
    simp only [List.all_cons, List.foldl_cons, Bool.and_eq_true]
    by_cases hc : '0' ≤ c ∧ c ≤ '9'
    · have hd := (isDigit_iff c).mp hc
      simp only [hc, and_self, if_true, hd, true_and]
      have hge := foldl_decimal_ge cs (n * 10 + (c.toNat - '0'.toNat))
      by_cases h1 : n ≥ (2 ^ 64 - 1) / 10 + 1
      · simp only [h1, if_true]
        constructor
        · intro h; cases h
        · rintro ⟨_, h2, h3⟩
          norm_num at h1
          omega
      · simp only [h1, if_false]
        by_cases h2 : n * 10 + (c.toNat - '0'.toNat) > 2 ^ 64 - 1
        · simp only [h2, if_true]
          constructor
          · intro h; cases h
          · rintro ⟨_, h3, h4⟩
            omega
        · simp only [h2, if_false]
          exact ih _ v (by omega)
    · have hd : c.isDigit ≠ true := fun h => hc ((isDigit_iff c).mpr h)
      simp only [hc, if_false, hd, false_and]
      constructor
      · intro h; cases h
      · rintro ⟨⟨h, _⟩, _⟩; cases h

theorem parseUint_iff (s : List Char) (v : Nat) :
    parseUint s = .ok v ↔
      (s ≠ [] ∧ s.all Char.isDigit = true ∧ valorDecimal s = v ∧ v ≤ 2 ^ 64 - 1) := by
  unfold parseUint
  by_cases hs : s = []
  · simp [hs]
  · simp only [hs, if_false, ne_eq, not_false_eq_true, true_and]
    exact parseUintLoop_iff s 0 v (by norm_num)

theorem valorEntero_eq (t : List Char) :
    valorEntero t = if (quitarSigno t).1 = true then -(valorDecimal (quitarSigno t).2 : Int)
      else (valorDecimal (quitarSigno t).2 : Int) := by
  unfold valorEntero quitarSigno
  split <;> simp

theorem isEmpty_eq_false_iff {α : Type} (l : List α) : (!l.isEmpty) = true ↔ l ≠ [] := by
  cases l <;> simp

/-- The model of `strconv.ParseInt(t, 10, 64)` succeeds with value `v`
exactly when `t` is a decimal integer literal of value `v` in the `int64`
range. -/
theorem parseInt_iff (t : List Char) (v : Int) :
    parseInt t = .ok v ↔
      (esEntero t = true ∧ valorEntero t = v ∧ -(2 : Int) ^ 63 ≤ v ∧ v ≤ 2 ^ 63 - 1) := by
  unfold parseInt
  by_cases ht : t = []
  · subst ht
    simp [esEntero]
  · simp only [ht, if_false]
    rw [esEntero_eq, valorEntero_eq, Bool.and_eq_true, isEmpty_eq_false_iff]
    generalize (quitarSigno t).1 = neg
    generalize (quitarSigno t).2 = rest
    cases hp : parseUint rest with
    | error e =>
      have hno : ¬ (rest ≠ [] ∧ rest.all Char.isDigit = true ∧ valorDecimal rest ≤ 2 ^ 64 - 1) := by
        rintro ⟨h1, h2, h3⟩
        have := (parseUint_iff rest (valorDecimal rest)).mpr ⟨h1, h2, rfl, h3⟩
        rw [hp] at this
        cases this
      constructor
      · intro h
        cases e <;> cases h
      · rintro ⟨⟨h1, h2⟩, h3, h4, h5⟩
        exfalso
        apply hno
        refine ⟨h1, h2, ?_⟩
        have hnn : (0 : Int) ≤ (valorDecimal rest : Int) := Int.natCast_nonneg _
        cases neg <;> simp at h3 <;> omega
    | ok un =>
      obtain ⟨h1, h2, h3, _⟩ := (parseUint_iff rest un).mp hp
      subst h3
      simp only [h1, h2, ne_eq, not_false_eq_true, and_self, true_and]
      cases neg
      · simp only [Bool.not_false, Bool.true_and, Bool.false_and, decide_eq_true_eq,
          Bool.false_eq_true, if_false]
        by_cases hge : valorDecimal rest ≥ 2 ^ 63
        · simp only [hge, if_true]
          constructor
          · intro h; cases h
          · rintro ⟨rfl, _, h5⟩
            omega
        · simp only [hge, if_false, Except.ok.injEq]
          constructor
          · rintro rfl
            exact ⟨rfl, by omega, by omega⟩
          · rintro ⟨h, _⟩; exact h
      · simp only [Bool.not_true, Bool.false_and, Bool.true_and, decide_eq_true_eq,
          Bool.false_eq_true, if_false, if_true]
        by_cases hgt : valorDecimal rest > 2 ^ 63
        · simp only [hgt, if_true]
          constructor
          · intro h; cases h
          · rintro ⟨rfl, h4, _⟩
            omega
        · simp only [hgt, if_false, Except.ok.injEq]
          constructor
          · rintro rfl
            exact ⟨rfl, by omega, by omega⟩
          · rintro ⟨h, _⟩; exact h

theorem esLiteralInt64_iff (t : List Char) :
    esLiteralInt64 t = true ↔ parseInt t = .ok (valorEntero t) := by
  rw [parseInt_iff]
  simp only [esLiteralInt64, Bool.and_eq_true, decide_eq_true_eq, true_and]

theorem parseCoeffsLoop_iff (fs : List (List Char)) : ∀ (ints l : List Int),
    parseCoeffsLoop fs ints = .ok l ↔
      ((∀ f ∈ fs, trimSpace f ≠ [] → esLiteralInt64 (trimSpace f) = true) ∧
        l = ints ++ (((fs.map trimSpace).filter fun t => decide (t ≠ [])).map valorEntero)) := by
  induction fs with
  | nil =>
    intro ints l
    simp only [parseCoeffsLoop, Except.ok.injEq, List.not_mem_nil, false_implies, implies_true,
      List.map_nil, List.filter_nil, List.append_nil, true_and]
    exact eq_comm
  | cons g gs ih =>
    intro ints l
    unfold parseCoeffsLoop
    by_cases hg : trimSpace g = []
    · have hf : ((g :: gs).map trimSpace).filter (fun t => decide (t ≠ []))
          = (gs.map trimSpace).filter (fun t => decide (t ≠ [])) := by
        simp [hg]
      rw [hf]
      simp only [hg, if_true, ih, List.mem_cons, forall_eq_or_imp, ne_eq, not_true_eq_false,
        false_implies, true_and]
    · simp only [hg, if_false]
      cases hp : parseInt (trimSpace g) with
      | error e =>
        simp only [List.mem_cons, forall_eq_or_imp]
        constructor
        · intro h; cases h
        · rintro ⟨⟨h, _⟩, _⟩
          have := (esLiteralInt64_iff _).mp (h hg)
          rw [hp] at this
          cases this
      | ok v =>
        have hv : valorEntero (trimSpace g) = v := ((parseInt_iff _ _).mp hp).2.1
        have hlit : esLiteralInt64 (trimSpace g) = true := by
          rw [esLiteralInt64_iff, hp, hv]
        have hf : ((g :: gs).map trimSpace).filter (fun t => decide (t ≠ []))
            = trimSpace g :: (gs.map trimSpace).filter (fun t => decide (t ≠ [])) := by
          simp [hg]
        rw [hf]
        simp only [ih, List.mem_cons, forall_eq_or_imp, hlit, implies_true, true_and,
          List.map_cons, hv, List.append_assoc, List.singleton_append]

/-- C15: `parseCoeffs` succeeds exactly when every token that is not empty
after trimming is a valid base-10 signed 64-bit integer literal and there
are at least 2 such tokens; the result is then the list of their values in
their original order. Empty tokens are dropped (`"1,,2"` gives `[1, 2]`) and
a token outside the `int64` range is rejected. -/
theorem parseCoeffs_exacto (csv : String) :
    ((∃ l, parseCoeffs csv = .ok l) ↔
      ((∀ t ∈ tokens csv, t ≠ [] → esLiteralInt64 t = true) ∧
        2 ≤ ((tokens csv).filter fun t => decide (t ≠ [])).length)) ∧
    (∀ l, parseCoeffs csv = .ok l →
      l = ((tokens csv).filter fun t => decide (t ≠ [])).map valorEntero) ∧
    parseCoeffs "1,,2" = .ok [1, 2] ∧
    parseCoeffs "1,9223372036854775808"
      = .error (.invalido "9223372036854775808".toList .rango) ∧
    parseCoeffs "1,-9223372036854775808" = .ok [1, -9223372036854775808] := by
  have hloop := parseCoeffsLoop_iff (splitComa csv.toList) []
  have key : ∀ l, parseCoeffs csv = .ok l ↔
      ((∀ t ∈ tokens csv, t ≠ [] → esLiteralInt64 t = true) ∧
        2 ≤ ((tokens csv).filter fun t => decide (t ≠ [])).length ∧
        l = ((tokens csv).filter fun t => decide (t ≠ [])).map valorEntero) := by
    intro l
    have htok : (∀ t ∈ tokens csv, t ≠ [] → esLiteralInt64 t = true) ↔
        ∀ f ∈ splitComa csv.toList, trimSpace f ≠ [] → esLiteralInt64 (trimSpace f) = true := by
      simp only [tokens, List.mem_map, forall_exists_index, and_imp, forall_apply_eq_imp_iff₂]
    rw [htok]
    unfold parseCoeffs
    cases hl : parseCoeffsLoop (splitComa csv.toList) [] with
    | error e =>
      simp only
      constructor
      · intro h; cases h
      · rintro ⟨h1, _, _⟩
        have := (hloop _).mpr ⟨h1, rfl⟩
        rw [hl] at this
        cases this
    | ok ints =>
      obtain ⟨h1, h2⟩ := (hloop ints).mp hl
      rw [List.nil_append] at h2
      have hlenEq : ints.length
          = ((tokens csv).filter fun t => decide (t ≠ [])).length := by
        rw [h2, List.length_map, tokens]
      have hmap : ((tokens csv).filter fun t => decide (t ≠ [])).map valorEntero = ints := by
        rw [h2, tokens]
      rw [hmap, ← hlenEq]
      by_cases hlen : ints.length < 2
      · simp only [hlen, if_true]
        constructor
        · intro h; cases h
        · rintro ⟨_, h, _⟩
          omega
      · simp only [hlen, if_false, Except.ok.injEq, toBigSlice, List.map_id']
        constructor
        · rintro rfl; exact ⟨h1, by omega, rfl⟩
        · rintro ⟨_, _, h⟩; exact h.symm
  refine ⟨?_, ?_, by rfl, by rfl, by rfl⟩
  · constructor
    · rintro ⟨l, hl⟩
      obtain ⟨h1, h2, _⟩ := (key l).mp hl
      exact ⟨h1, h2⟩
    · rintro ⟨h1, h2⟩
      exact ⟨_, (key _).mpr ⟨h1, h2, rfl⟩⟩
  · intro l hl
    exact ((key l).mp hl).2.2

theorem parseCoeffs_exacto_witness :
    (∀ t ∈ tokens " 1, -6 ,,+11,-6", t ≠ [] → esLiteralInt64 t = true) ∧
    2 ≤ ((tokens " 1, -6 ,,+11,-6").filter fun t => decide (t ≠ [])).length ∧
    (∃ l, parseCoeffs " 1, -6 ,,+11,-6" = .ok l) ∧
    parseCoeffs " 1, -6 ,,+11,-6" = .ok [1, -6, 11, -6] ∧
    ([1, -6, 11, -6] : List Int)
      = ((tokens " 1, -6 ,,+11,-6").filter fun t => decide (t ≠ [])).map valorEntero :=
  ⟨by decide, by decide,
    (parseCoeffs_exacto " 1, -6 ,,+11,-6").1.mpr ⟨by decide, by decide⟩,
    by rfl, (parseCoeffs_exacto " 1, -6 ,,+11,-6").2.1 [1, -6, 11, -6] (by rfl)⟩


end RaicesEnteras
